import Mathlib

/-!
# Reaching Definition Analysis pass (`RDA::runOnFunction`, RDA.cpp)

A shallow embedding of the LLVM function pass of `RDA.cpp` and a verification
of its behaviour.

Modelling conventions.

* The pass `static_cast`s every instruction to a `StoreInst` and only ever reads
  the name of its pointer operand, so an instruction is represented by that
  name; `hasName ()` is `name ≠ ""` (LLVM gives `getName () = ""` exactly to the
  values without a name).
* A `BasicBlock*` is the position of the block in the function, an
  `Instruction*` is the pair (block position, position in the block).
* `std::map<K, V>` is a finite partial function `K → Option V`; `find` is
  application, `insert` keeps an entry that is already there, `operator[]` on a
  key that is present reads it.
* `unsigned` ids are natural numbers (a function with `2^32` stores is out of
  reach of the pass).
* `std::sort` on a vector of ids is insertion sort: the sorted rearrangement of
  a list of numbers is unique.
* A `std::vector` iterator is a position in the vector; after `erase` the same
  position denotes the element that followed the erased one.  Reading or
  stepping a position beyond the end is reported as `Fault.outOfRange`.
* The `while` loop of the solver is driven by a number of passes (`fuel`); a run
  that needs more passes ends in `Fault.outOfFuel`.
-/

namespace RDA

/-! ## Data model -/

/-- A `std::map<K, V>`. -/
abbrev StdMap (K V : Type) := K → Option V

/-- The map without entries. -/
def StdMap.empty {K V : Type} : StdMap K V := fun _ => none

/-- `m.insert (std::pair (k, v))`: adds the entry unless the key has one. -/
def StdMap.insert {K V : Type} [DecidableEq K] (m : StdMap K V) (k : K) (v : V) : StdMap K V :=
  fun k' => if k' = k then (match m k with | some w => some w | none => some v) else m k'

/-- `m [ k ]` read as an rvalue (`dflt` is the value-initialised `V`). -/
def StdMap.at {K V : Type} (m : StdMap K V) (k : K) (dflt : V) : V :=
  (m k).getD dflt

/-- `m [ k ].push_back ( x )`. -/
def StdMap.pushBack {K : Type} [DecidableEq K] (m : StdMap K (List Nat)) (k : K) (x : Nat) :
    StdMap K (List Nat) :=
  fun k' => if k' = k then some (m.at k [] ++ [x]) else m k'

/-- An `llvm::Instruction*`: block position and position inside the block. -/
abbrev Handle := Nat × Nat

/-- A basic block: the names of the pointer operands of its instructions, in
order, and its predecessors as `pred_begin .. pred_end` lists them. -/
structure BasicBlock where
  insts : List String
  preds : List Nat
deriving DecidableEq, Repr

/-- A function: its basic blocks in `f.begin () .. f.end ()` order. -/
abbrev Function := List BasicBlock

/-- `storeInst->getPointerOperand ()->hasName ()`. -/
def hasName (name : String) : Bool := name != ""

/-- The instructions of block `bi` with their handles, in block order. -/
def blockStores (bi : Nat) (insts : List String) : List (Handle × String) :=
  insts.enum.map fun e => ((bi, e.1), e.2)

/-- All instructions of the function in the order of the two nested loops
(blocks in function order, instructions in block order). -/
def allStores (f : Function) : List (Handle × String) :=
  f.enum.flatMap fun e => blockStores e.1 e.2.insts

/-- `std::sort ( v.begin (), v.end () )` on ids. -/
def sort (v : List Nat) : List Nat := v.insertionSort (· ≤ ·)

/-! ## Collect all variable informations (lines 37-64) -/

/-- The three maps and the counter of the first loop. -/
structure Catalog where
  allvar : StdMap String (List Nat)
  index : StdMap Handle Nat
  names : StdMap Nat String
  indexCount : Nat

/-- State before the first loop. -/
def Catalog.init : Catalog := ⟨StdMap.empty, StdMap.empty, StdMap.empty, 0⟩

/-- Body of the first loop for one instruction (lines 47-62).  The
`allvar.insert` of line 56 runs only when the key is present, where `insert`
changes nothing. -/
def collectInst (c : Catalog) (e : Handle × String) : Catalog :=
  if hasName e.2 then
    let names := c.names.insert c.indexCount e.2
    let allvar := if c.allvar e.2 ≠ none then c.allvar.insert e.2 [] else c.allvar
    let index := c.index.insert e.1 c.indexCount
    let allvar := allvar.pushBack e.2 c.indexCount
    ⟨allvar, index, names, c.indexCount + 1⟩
  else c

/-- The first loop (lines 43-64). -/
def catalog (f : Function) : Catalog :=
  (allStores f).foldl collectInst Catalog.init

/-! ## GEN/KILL (lines 85-136) -/

/-- The loop over `others` (lines 106-111). -/
def killOthers (gen : List Nat) (others kill : List Nat) : List Nat :=
  others.foldl (fun kill o => if o ∈ gen then kill else if o ∈ kill then kill else kill ++ [o]) kill

/-- Body of the instruction loop (lines 94-112) on `(gen, kill)`. -/
def genKillInst (c : Catalog) (st : List Nat × List Nat) (e : Handle × String) :
    List Nat × List Nat :=
  match c.allvar e.2 with
  | none => st
  | some others =>
    let id := c.index.at e.1 0
    let gen := sort (if id ∈ st.1 then st.1 else st.1 ++ [id])
    (gen, killOthers gen others st.2)

/-- The instruction loop of one block (lines 88-113): `gen` and the `kill`
before deletion. -/
def genKillLoop (c : Catalog) (bi : Nat) (b : BasicBlock) : List Nat × List Nat :=
  (blockStores bi b.insts).foldl (genKillInst c) ([], [])

/-- Possible ends of a run other than a result. -/
inductive Fault where
  | outOfRange
  | outOfFuel
deriving DecidableEq, Repr

/-- Inner loop of lines 117-119 with the cursor `k` of the outer loop: for each
`g`, `*k` is read (a fault when `k` is not a position of `kill`) and the element
at `k` erased when it equals `g`. -/
def pruneInner (k : Nat) : List Nat → List Nat → Option (List Nat)
  | [], kill => some kill
  | g :: gs, kill =>
    match kill.get? k with
    | none => none
    | some v => if v = g then pruneInner k gs (kill.eraseIdx k) else pruneInner k gs kill

/-- Outer loop of lines 116-119 from cursor `k`; `n` bounds the remaining
iterations (`kill.length - k` never grows, see `pruneLoop_fuel`). -/
def pruneLoop (gen : List Nat) : Nat → Nat → List Nat → Option (List Nat)
  | 0, k, kill => if k = kill.length then some kill else none
  | n + 1, k, kill =>
    if k = kill.length then some kill
    else if kill.length < k then none
    else
      match pruneInner k gen kill with
      | none => none
      | some kill' => pruneLoop gen n (k + 1) kill'

/-- Lines 115-120: "Delete from KILL if contained GEN", then sort. -/
def pruneKill (gen kill : List Nat) : Option (List Nat) :=
  (pruneLoop gen kill.length 0 kill).map sort

/-- GEN and KILL of one block (lines 87-120). -/
def summarize (c : Catalog) (bi : Nat) (b : BasicBlock) : Except Fault (List Nat × List Nat) :=
  let gk := genKillLoop c bi b
  match pruneKill gk.1 gk.2 with
  | none => .error .outOfRange
  | some kill => .ok (gk.1, kill)

/-- State of the second loop: `gens`, `kills`, `basicblocks`. -/
structure Summary where
  gens : StdMap Nat (List Nat)
  kills : StdMap Nat (List Nat)
  basicblocks : List Nat

/-- State before the second loop. -/
def Summary.init : Summary := ⟨StdMap.empty, StdMap.empty, []⟩

/-- The loop over the basic blocks (lines 85-136). -/
def summarizeBlocks (c : Catalog) : List (Nat × BasicBlock) → Summary → Except Fault Summary
  | [], s => .ok s
  | e :: rest, s =>
    match summarize c e.1 e.2 with
    | .error err => .error err
    | .ok gk =>
      summarizeBlocks c rest ⟨s.gens.insert e.1 gk.1, s.kills.insert e.1 gk.2, s.basicblocks ++ [e.1]⟩

/-! ## IN/OUT (lines 141-209) -/

/-- State of the solver: `ins` and `outs`. -/
structure Flow where
  ins : StdMap Nat (List Nat)
  outs : StdMap Nat (List Nat)

/-- State before the solver. -/
def Flow.init : Flow := ⟨StdMap.empty, StdMap.empty⟩

/-- `pred_begin ( temp ) .. pred_end ( temp )`. -/
def predsOf (f : Function) (temp : Nat) : List Nat :=
  match f.get? temp with
  | some b => b.preds
  | none => []

/-- Lines 178-182: add the ids of `pout` that `in` does not hold yet. -/
def addPout (inn pout : List Nat) : List Nat :=
  pout.foldl (fun inn poi => if poi ∈ inn then inn else inn ++ [poi]) inn

/-- Lines 173-184: "Collect IN from predecessors". -/
def collectIn (outs : StdMap Nat (List Nat)) (preds : List Nat) : List Nat :=
  sort (preds.foldl (fun inn predecessor => addPout inn (outs.at predecessor [])) [])

/-- Lines 192-197: erase the first occurrence of each friend. -/
def eraseFriends (friends intemp : List Nat) : List Nat :=
  friends.foldl (fun intemp fr => intemp.erase fr) intemp

/-- Lines 186-202: "Collect OUT". -/
def collectOut (c : Catalog) (myGen inn : List Nat) : List Nat :=
  sort (myGen.foldl
    (fun intemp g => eraseFriends (c.allvar.at (c.names.at g "") []) intemp ++ [g]) inn)

/-- Lines 161-164: some predecessor has no entry in `outs`. -/
def predecessorNotProceed (outs : StdMap Nat (List Nat)) (preds : List Nat) : Bool :=
  preds.foldl (fun flag p => if outs p = none then true else flag) false

/-- One run of the `for` loop of lines 147-208.  The vector `basicblocks` is
`kept ++ rest` with the iterator `bb` at position `kept.length`: a block that is
not ready stays (`++bb`), a resolved one is erased and `bb` then denotes the
block that followed it. -/
def tracePass (f : Function) (c : Catalog) (s : Summary) :
    List Nat → List Nat → Flow → List Nat × Flow
  | [], kept, fl => (kept, fl)
  | temp :: rest, kept, fl =>
    if predsOf f temp ≠ [] ∧ predecessorNotProceed fl.outs (predsOf f temp) = true then
      tracePass f c s rest (kept ++ [temp]) fl
    else
      let inn := collectIn fl.outs (predsOf f temp)
      let out := collectOut c (s.gens.at temp []) inn
      tracePass f c s rest kept ⟨fl.ins.insert temp inn, fl.outs.insert temp out⟩

/-- The `while` loop of lines 145-209, for at most `fuel` passes. -/
def trace (f : Function) (c : Catalog) (s : Summary) : Nat → List Nat → Flow → Except Fault Flow
  | _, [], fl => .ok fl
  | 0, _ :: _, _ => .error .outOfFuel
  | fuel + 1, temp :: rest, fl =>
    let r := tracePass f c s (temp :: rest) [] fl
    trace f c s fuel r.1 r.2

/-- What the pass has computed when it returns. -/
structure Result where
  cat : Catalog
  gens : StdMap Nat (List Nat)
  kills : StdMap Nat (List Nat)
  ins : StdMap Nat (List Nat)
  outs : StdMap Nat (List Nat)

/-- The pass `RDA::runOnFunction`, its `while` loop limited to `fuel` passes. -/
def runOnFunction (fuel : Nat) (f : Function) : Except Fault Result :=
  match summarizeBlocks (catalog f) f.enum Summary.init with
  | .error err => .error err
  | .ok s =>
    match trace f (catalog f) s fuel s.basicblocks Flow.init with
    | .error err => .error err
    | .ok fl => .ok ⟨catalog f, s.gens, s.kills, fl.ins, fl.outs⟩

/-! ## Auxiliary notions used by the statements -/

/-- Named stores of the function in discovery order. -/
def defs (f : Function) : List (Handle × String) := (allStores f).filter fun e => hasName e.2

/-- The catalog `c` describes the list `D` of named stores met so far. -/
structure CatOK (c : Catalog) (D : List (Handle × String)) : Prop where
  count : c.indexCount = D.length
  names : ∀ k : Nat, c.names k = (D[k]?).map Prod.snd
  index : ∀ (h : Handle) (k : Nat), c.index h = some k ↔ (D[k]?).map Prod.fst = some h
  allvar_mem : ∀ (n : String) (k : Nat), k ∈ c.allvar.at n [] ↔ (D[k]?).map Prod.snd = some n
  allvar_sorted : ∀ n, (c.allvar.at n []).Pairwise (· < ·)
  allvar_none : ∀ n, c.allvar n = none ↔ ∀ k : Nat, (D[k]?).map Prod.snd ≠ some n

/-- Named stores of block `bi`, in block order. -/
def blockDefs (bi : Nat) (b : BasicBlock) : List (Handle × String) :=
  (blockStores bi b.insts).filter fun e => hasName e.2

/-- Number of named stores in the blocks before block `bi`. -/
def firstId (f : Function) (bi : Nat) : Nat := (defs (f.take bi)).length

/-- The id the catalog gives to a store (`index [ storeInst ]`). -/
def idOf (c : Catalog) (e : Handle × String) : Nat := c.index.at e.1 0

/-- The `friends` of line 191 for the id `g`. -/
def friendsOf (c : Catalog) (g : Nat) : List Nat := c.allvar.at (c.names.at g "") []

/-- The summary `s` holds, for every block of `f`, what `summarize` returns for
it, and `basicblocks` lists the blocks in order. -/
structure SumOK (f : Function) (s : Summary) : Prop where
  blocks : s.basicblocks = List.range f.length
  summ : ∀ bi b, f[bi]? = some b → ∃ gen kill,
    summarize (catalog f) bi b = .ok (gen, kill) ∧ s.gens bi = some gen ∧ s.kills bi = some kill

/-- Lines 173-205 for the block `temp`: its `in` and `out` are computed from the
current `outs` and stored. -/
def resolve (f : Function) (c : Catalog) (s : Summary) (fl : Flow) (temp : Nat) : Flow :=
  ⟨fl.ins.insert temp (collectIn fl.outs (predsOf f temp)),
   fl.outs.insert temp
     (collectOut c (s.gens.at temp []) (collectIn fl.outs (predsOf f temp)))⟩

/-- Every block with an entry in `outs` has all its predecessors there, and its
`in` and `out` are what lines 173-202 compute from the stored `outs`; the
resolved blocks are ranked so that predecessors come first. -/
structure FlowOK (f : Function) (c : Catalog) (s : Summary) (fl : Flow) : Prop where
  ins_none : ∀ b, fl.outs b = none → fl.ins b = none
  eqns : ∀ b, fl.outs b ≠ none →
    (∀ p ∈ predsOf f b, fl.outs p ≠ none) ∧
    fl.ins b = some (collectIn fl.outs (predsOf f b)) ∧
    fl.outs b = some (collectOut c (s.gens.at b []) (collectIn fl.outs (predsOf f b)))
  ranked : ∃ (rank : Nat → Nat) (N : Nat), ∀ b, fl.outs b ≠ none →
    rank b < N ∧ ∀ p ∈ predsOf f b, rank p < rank b

/-- The vector `basicblocks` holds, once each, the blocks of `all` that have no
entry in `outs` yet. -/
structure PendingOK (fl : Flow) (all P : List Nat) : Prop where
  nodup : P.Nodup
  unresolved : ∀ b ∈ P, fl.outs b = none
  covered : ∀ b ∈ all, b ∈ P ∨ fl.outs b ≠ none
  inside : ∀ b ∈ P, b ∈ all
  resolved_in : ∀ b, fl.outs b ≠ none → b ∈ all

/-- The stores of a list that no later store of the list follows with the same
name. -/
def lastDefsOf : List (Handle × String) → List (Handle × String)
  | [] => []
  | e :: rest => if rest.any (fun e' => e'.2 == e.2) then lastDefsOf rest else e :: lastDefsOf rest

/-- The ids of the named stores of block `bi` that are the last store of the
block to their variable. -/
def lastIds (c : Catalog) (bi : Nat) (b : BasicBlock) : List Nat :=
  (lastDefsOf (blockDefs bi b)).map (idOf c)

/-- The control-flow graph has no directed cycle (no self-loop either): no block
is reached from itself along one or more predecessor edges. -/
def Acyclic (f : Function) : Prop :=
  ∀ b, ¬ Relation.TransGen (fun p q => p ∈ predsOf f q) b b

/-- Every predecessor is a block of the function. -/
def PredsInRange (f : Function) : Prop :=
  ∀ b p, p ∈ predsOf f b → p < f.length

/-- `b0 → q1 → … → qk` is a control-flow path that ends in `b`, for
`rest = [q1, …, qk]` (`b = b0` when `rest` is empty): each block is a predecessor
of the next. -/
def PathFromTo (f : Function) : Nat → List Nat → Nat → Prop
  | b0, [], b => b0 = b
  | b0, q :: rest, b => b0 ∈ predsOf f q ∧ PathFromTo f q rest b

/-- Block `bi` has a store to the variable of the definition `d`. -/
def WritesVarOf (f : Function) (bi : Nat) (d : Nat) : Prop :=
  ∃ b v, f[bi]? = some b ∧ (catalog f).names d = some v ∧ v ∈ b.insts

/-- The definition `d` is a store of block `b0` that no later store of `b0`
to the same variable follows. -/
def LastDefIn (f : Function) (b0 : Nat) (d : Nat) : Prop :=
  ∃ b, f[b0]? = some b ∧ d ∈ lastIds (catalog f) b0 b

/-- The function without its stores to unnamed targets: two functions with the
same `dropUnnamed` differ by inserting and deleting such stores. -/
def dropUnnamed (f : Function) : Function :=
  f.map fun b => ⟨b.insts.filter hasName, b.preds⟩

/-- Two runs end alike: with the same fault, or with the same `gens`, `kills`,
`ins` and `outs`. -/
def SameSets : Except Fault Result → Except Fault Result → Prop
  | .ok r, .ok r' => r.gens = r'.gens ∧ r.kills = r'.kills ∧ r.ins = r'.ins ∧ r.outs = r'.outs
  | .error e, .error e' => e = e'
  | _, _ => False

/-- State of the solver between two visits of a block: the vector `basicblocks`
is `kept ++ rest`, the iterator `bb` stands at the head of `rest`. -/
structure SolverState where
  rest : List Nat
  kept : List Nat
  fl : Flow

/-- One step of the loops of lines 145-208: the block at the iterator waits
(lines 166-170), or is resolved and erased (lines 173-207), or the `for` loop has
reached the end of a non-empty vector and the `while` loop starts it again. -/
inductive SolverStep (f : Function) (c : Catalog) (s : Summary) :
    SolverState → SolverState → Prop
  | waits (temp : Nat) (rest kept : List Nat) (fl : Flow) :
      (predsOf f temp ≠ [] ∧ predecessorNotProceed fl.outs (predsOf f temp) = true) →
      SolverStep f c s ⟨temp :: rest, kept, fl⟩ ⟨rest, kept ++ [temp], fl⟩
  | resolves (temp : Nat) (rest kept : List Nat) (fl : Flow) :
      ¬ (predsOf f temp ≠ [] ∧ predecessorNotProceed fl.outs (predsOf f temp) = true) →
      SolverStep f c s ⟨temp :: rest, kept, fl⟩ ⟨rest, kept, resolve f c s fl temp⟩
  | again (temp : Nat) (kept : List Nat) (fl : Flow) :
      SolverStep f c s ⟨[], temp :: kept, fl⟩ ⟨temp :: kept, [], fl⟩

/-- The vector `basicblocks` and the maps after `k` runs of the `for` loop. -/
def afterPasses (f : Function) (c : Catalog) (s : Summary) : Nat → List Nat × Flow
  | 0 => (s.basicblocks, Flow.init)
  | k + 1 => tracePass f c s (afterPasses f c s k).1 [] (afterPasses f c s k).2

/-- The summary that the GEN/KILL loop leaves (`Summary.init` when it faults). -/
def summaryOf (f : Function) : Summary :=
  match summarizeBlocks (catalog f) f.enum Summary.init with
  | .ok s => s
  | .error _ => Summary.init

/-! ## Example functions -/

/-- One block `x := 1; x := 2`. -/
def straightLine : Function := [⟨["x", "x"], []⟩]

/-- `B0: x := 1; x := 2` followed by `B1: x := 3`. -/
def straightThenStore : Function := [⟨["x", "x"], []⟩, ⟨["x"], [0]⟩]

/-- One block `x := 1; y := 2; y := 3; x := 4`. -/
def crossedStores : Function := [⟨["x", "y", "y", "x"], []⟩]

/-- The diamond `B0 → {B1, B2} → B3` with `B0: x := 1`, `B1: x := 2`. -/
def diamond : Function := [⟨["x"], []⟩, ⟨["x"], [0]⟩, ⟨[], [0]⟩, ⟨[], [1, 2]⟩]

/-- `B0: x := 1` is a predecessor of itself and of `B1: x := 2`. -/
def selfLoop : Function := [⟨["x"], [0]⟩, ⟨["x"], [0]⟩]

/-- `B0: x := 1` followed by `B1: x := 2; x := 3`. -/
def storeThenTwice : Function := [⟨["x"], []⟩, ⟨["x", "x"], [0]⟩]

/-- `B0 → B2 → B1` with the blocks listed as `B0, B1, B2`: `B1` comes before its
predecessor `B2`. -/
def outOfOrder : Function := [⟨["x"], []⟩, ⟨["y"], [2]⟩, ⟨["x"], [0]⟩]

/-- `B0: x := 1; t := …; y := 2` and `B1: y := 3; x := 4` with `B0 → B1`, `t`
without a name. -/
def withUnnamed : Function := [⟨["x", "", "y"], []⟩, ⟨["y", "x"], [0]⟩]

/-- The function `withUnnamed` with other stores to unnamed targets. -/
def withOtherUnnamed : Function := [⟨["", "x", "y", ""], []⟩, ⟨["y", "", "", "x"], [0]⟩]

/-! ## Theorems

### The catalog -/

theorem StdMap.insert_of_present {K V : Type} [DecidableEq K] (m : StdMap K V) (k : K) (v : V)
    (h : m k ≠ none) : m.insert k v = m := by
  funext k'
  unfold StdMap.insert
  by_cases hk : k' = k
  · subst hk
    cases hm : m k' with
    | none => exact absurd hm h
    | some w => simp
  · simp [hk]

theorem StdMap.insert_of_absent {K V : Type} [DecidableEq K] (m : StdMap K V) (k : K) (v : V)
    (h : m k = none) (k' : K) : m.insert k v k' = if k' = k then some v else m k' := by
  unfold StdMap.insert
  by_cases hk : k' = k
  · simp [hk, h]
  · simp [hk]

theorem CatOK.init : CatOK Catalog.init [] := by
  constructor <;> simp [Catalog.init, StdMap.empty, StdMap.at]

theorem collectInst_unnamed (c : Catalog) (e : Handle × String) (h : hasName e.2 = false) :
    collectInst c e = c := by
  simp [collectInst, h]

theorem collectInst_named (c : Catalog) (e : Handle × String) (h : hasName e.2 = true) :
    collectInst c e = ⟨c.allvar.pushBack e.2 c.indexCount, c.index.insert e.1 c.indexCount,
      c.names.insert c.indexCount e.2, c.indexCount + 1⟩ := by
  unfold collectInst
  rw [if_pos h]
  by_cases hp : c.allvar e.2 ≠ none
  · simp only [if_pos hp, StdMap.insert_of_present _ _ _ hp]
  · simp only [if_neg hp]

theorem getElem?_snoc_map {α β : Type} (D : List α) (a : α) (g : α → β) (k : Nat) :
    ((D ++ [a])[k]?).map g = if k = D.length then some (g a) else (D[k]?).map g := by
  by_cases hk : k = D.length
  · subst hk; simp
  · rcases Nat.lt_or_gt_of_ne hk with h | h
    · rw [List.getElem?_append_left h]; simp [hk]
    · rw [List.getElem?_eq_none (by simp; omega), List.getElem?_eq_none (by omega)]; simp [hk]

theorem CatOK.step {c : Catalog} {D : List (Handle × String)} (ok : CatOK c D)
    (e : Handle × String) (hn : hasName e.2 = true) (hfresh : e.1 ∉ D.map Prod.fst) :
    CatOK (collectInst c e) (D ++ [e]) := by
  rw [collectInst_named c e hn]
  have hnone : D[D.length]? = none := List.getElem?_eq_none (Nat.le_refl _)
  have hidx : c.index e.1 = none := by
    cases hi : c.index e.1 with
    | none => rfl
    | some k =>
      exfalso; apply hfresh
      have := (ok.index e.1 k).1 hi
      rw [List.mem_map]
      cases hd : D[k]? with
      | none => simp [hd] at this
      | some x =>
        simp [hd] at this
        exact ⟨x, List.mem_iff_getElem?.2 ⟨k, hd⟩, this⟩
  have hnm : c.names c.indexCount = none := by rw [ok.names, ok.count, hnone]; rfl
  constructor
  · simp [ok.count]
  · intro k
    show c.names.insert c.indexCount e.2 k = _
    rw [StdMap.insert_of_absent _ _ _ hnm, getElem?_snoc_map, ok.count, ok.names]
  · intro h k
    show c.index.insert e.1 c.indexCount h = some k ↔ _
    rw [StdMap.insert_of_absent _ _ _ hidx, getElem?_snoc_map, ok.count]
    by_cases hh : h = e.1
    · subst hh
      by_cases hk : k = D.length
      · simp [hk]
      · simp only [if_true, if_neg hk]
        constructor
        · intro h1; exact absurd (Option.some.inj h1).symm hk
        · intro h1; rw [← ok.index, hidx] at h1; exact absurd h1 (by simp)
    · simp only [if_neg hh]
      by_cases hk : k = D.length
      · subst hk
        simp only [if_true]
        constructor
        · intro h1; rw [ok.index, hnone] at h1; simp at h1
        · intro h1; exact absurd (Option.some.inj h1).symm hh
      · simp only [if_neg hk]; exact ok.index h k
  · intro n k
    rw [getElem?_snoc_map]
    by_cases hne : n = e.2
    · subst hne
      have : (c.allvar.pushBack e.2 c.indexCount).at e.2 [] = c.allvar.at e.2 [] ++ [D.length] := by
        simp [StdMap.pushBack, StdMap.at, ok.count]
      rw [this, List.mem_append, ok.allvar_mem]
      by_cases hk : k = D.length
      · simp [hk]
      · simp [hk]
    · have : (c.allvar.pushBack e.2 c.indexCount).at n [] = c.allvar.at n [] := by
        simp [StdMap.pushBack, StdMap.at, hne]
      rw [this, ok.allvar_mem]
      by_cases hk : k = D.length
      · subst hk; simp [hnone, Ne.symm hne]
      · simp [hk]
  · intro n
    by_cases hne : n = e.2
    · subst hne
      have : (c.allvar.pushBack e.2 c.indexCount).at e.2 [] = c.allvar.at e.2 [] ++ [D.length] := by
        simp [StdMap.pushBack, StdMap.at, ok.count]
      rw [this, List.pairwise_append]
      refine ⟨ok.allvar_sorted _, List.pairwise_singleton _ _, ?_⟩
      intro a ha b hb
      rw [List.mem_singleton] at hb; subst hb
      have := (ok.allvar_mem _ _).1 ha
      by_contra hlt
      rw [List.getElem?_eq_none (by omega)] at this
      simp at this
    · have : (c.allvar.pushBack e.2 c.indexCount).at n [] = c.allvar.at n [] := by
        simp [StdMap.pushBack, StdMap.at, hne]
      rw [this]; exact ok.allvar_sorted n
  · intro n
    show c.allvar.pushBack e.2 c.indexCount n = none ↔ _
    by_cases hne : n = e.2
    · subst hne
      simp only [StdMap.pushBack, if_true]
      constructor
      · intro h; simp at h
      · intro h; exact absurd (by simp) (h D.length)
    · simp only [StdMap.pushBack, if_neg hne]
      rw [ok.allvar_none]
      constructor
      · intro h k
        rw [getElem?_snoc_map]
        by_cases hk : k = D.length
        · simp [hk, Ne.symm hne]
        · simp only [if_neg hk]; exact h k
      · intro h k
        have := h k
        rw [getElem?_snoc_map] at this
        by_cases hk : k = D.length
        · subst hk; simp [hnone]
        · simpa [hk] using this

theorem CatOK.foldl (evs : List (Handle × String)) (hnd : (evs.map Prod.fst).Nodup) :
    CatOK (evs.foldl collectInst Catalog.init) (evs.filter fun e => hasName e.2) := by
  induction evs using List.reverseRecOn with
  | nil => exact CatOK.init
  | append_singleton l e ih =>
    rw [List.map_append, List.nodup_append] at hnd
    rw [List.foldl_append, List.filter_append]
    simp only [List.foldl_cons, List.foldl_nil]
    by_cases hn : hasName e.2 = true
    · have : List.filter (fun e => hasName e.2) [e] = [e] := by simp [hn]
      rw [this]
      apply (ih hnd.1).step e hn
      intro hmem
      rw [List.mem_map] at hmem
      obtain ⟨x, hx, hxe⟩ := hmem
      have hx' : x ∈ l := List.mem_of_mem_filter hx
      exact hnd.2.2 (List.mem_map_of_mem _ hx') (by simp [hxe])
    · have hn' : hasName e.2 = false := by simpa using hn
      have : List.filter (fun e => hasName e.2) [e] = [] := by simp [hn']
      rw [this, List.append_nil, collectInst_unnamed _ _ hn']
      exact ih hnd.1

theorem mem_blockStores {bi : Nat} {insts : List String} {e : Handle × String} :
    e ∈ blockStores bi insts ↔ e.1.1 = bi ∧ insts[e.1.2]? = some e.2 := by
  obtain ⟨⟨b, p⟩, nm⟩ := e
  simp only [blockStores, List.mem_map]
  constructor
  · rintro ⟨⟨i, x⟩, hx, heq⟩
    simp only [Prod.mk.injEq] at heq
    obtain ⟨⟨rfl, rfl⟩, rfl⟩ := heq
    have := List.mk_mem_enum_iff_getElem?.1 hx
    exact ⟨rfl, this⟩
  · rintro ⟨rfl, h⟩
    exact ⟨(p, nm), List.mk_mem_enum_iff_getElem?.2 h, rfl⟩

theorem blockStores_map_fst (bi : Nat) (insts : List String) :
    (blockStores bi insts).map Prod.fst = (List.range insts.length).map fun p => (bi, p) := by
  simp only [blockStores, List.map_map]
  rw [← List.enum_map_fst insts, List.map_map]
  rfl

theorem blockStores_nodup (bi : Nat) (insts : List String) :
    ((blockStores bi insts).map Prod.fst).Nodup := by
  rw [blockStores_map_fst]
  exact (List.nodup_range _).map (fun a b h => by simpa using h)

theorem allStores_append (f g : Function) :
    allStores (f ++ g) =
      allStores f ++ (g.enumFrom f.length).flatMap fun e => blockStores e.1 e.2.insts := by
  simp [allStores, List.enum_append]

theorem allStores_snoc (f : Function) (b : BasicBlock) :
    allStores (f ++ [b]) = allStores f ++ blockStores f.length b.insts := by
  rw [allStores_append]; simp

theorem allStores_fst_lt (f : Function) {e : Handle × String} (h : e ∈ allStores f) :
    e.1.1 < f.length := by
  induction f using List.reverseRecOn with
  | nil => simp [allStores] at h
  | append_singleton l b ih =>
    rw [allStores_snoc, List.mem_append] at h
    rw [List.length_append]
    rcases h with h | h
    · have := ih h; omega
    · have := (mem_blockStores.1 h).1; simp; omega

theorem allStores_nodup (f : Function) : ((allStores f).map Prod.fst).Nodup := by
  induction f using List.reverseRecOn with
  | nil => simp [allStores]
  | append_singleton l b ih =>
    rw [allStores_snoc, List.map_append, List.nodup_append]
    refine ⟨ih, blockStores_nodup _ _, ?_⟩
    intro h h1 h2
    rw [List.mem_map] at h1 h2
    obtain ⟨x, hx, rfl⟩ := h1
    obtain ⟨y, hy, hxy⟩ := h2
    have := allStores_fst_lt l hx
    have := (mem_blockStores.1 hy).1
    rw [hxy] at this
    omega

/-- The stores that the loops visit: instruction `p` of block `bi`, with its
name. -/
theorem mem_allStores (f : Function) (e : Handle × String) :
    e ∈ allStores f ↔ ∃ b, f[e.1.1]? = some b ∧ b.insts[e.1.2]? = some e.2 := by
  induction f using List.reverseRecOn with
  | nil => simp [allStores]
  | append_singleton l b ih =>
    rw [allStores_snoc, List.mem_append, ih, mem_blockStores]
    constructor
    · rintro (⟨b', h1, h2⟩ | ⟨h1, h2⟩)
      · have hlt := (List.getElem?_eq_some.1 h1).1
        exact ⟨b', by rw [List.getElem?_append_left hlt]; exact h1, h2⟩
      · exact ⟨b, by rw [h1]; simp, h2⟩
    · rintro ⟨b', h1, h2⟩
      by_cases hlt : e.1.1 < l.length
      · rw [List.getElem?_append_left hlt] at h1
        exact Or.inl ⟨b', h1, h2⟩
      · have hlen := (List.getElem?_eq_some.1 h1).1
        simp only [List.length_append, List.length_cons, List.length_nil] at hlen
        have heq : e.1.1 = l.length := by omega
        rw [heq] at h1
        simp only [List.getElem?_concat_length, Option.some.injEq] at h1
        subst h1
        exact Or.inr ⟨heq, h2⟩

theorem catalog_ok (f : Function) : CatOK (catalog f) (defs f) :=
  CatOK.foldl (allStores f) (allStores_nodup f)

theorem defs_split {f : Function} {bi : Nat} {b : BasicBlock} (hb : f[bi]? = some b) :
    ∃ X, defs f = defs (f.take bi) ++ blockDefs bi b ++ X := by
  obtain ⟨hlt, hget⟩ := List.getElem?_eq_some.1 hb
  have hf : f = (f.take bi ++ [b]) ++ f.drop (bi + 1) := by
    rw [← hget, List.append_assoc, List.singleton_append, List.getElem_cons_drop, List.take_append_drop]
  refine ⟨((f.drop (bi + 1)).enumFrom (f.take bi ++ [b]).length).flatMap
      (fun e => blockStores e.1 e.2.insts) |>.filter fun e => hasName e.2, ?_⟩
  have hlen : (f.take bi).length = bi := by simp; omega
  conv_lhs => rw [hf]
  unfold defs blockDefs
  rw [allStores_append, allStores_snoc, hlen, List.filter_append, List.filter_append]

theorem defs_getElem?_block {f : Function} {bi : Nat} {b : BasicBlock} (hb : f[bi]? = some b)
    {j : Nat} (hj : j < (blockDefs bi b).length) :
    (defs f)[firstId f bi + j]? = (blockDefs bi b)[j]? := by
  obtain ⟨X, hX⟩ := defs_split hb
  rw [hX, List.getElem?_append_left (by simp [firstId]; omega),
    List.getElem?_append_right (by simp [firstId]), firstId]
  simp

theorem firstId_add_le {f : Function} {bi : Nat} {b : BasicBlock} (hb : f[bi]? = some b) :
    firstId f bi + (blockDefs bi b).length ≤ (defs f).length := by
  obtain ⟨X, hX⟩ := defs_split hb
  rw [hX]; simp [firstId]

/-! ### The ids of one block -/

theorem block_index {f : Function} {bi : Nat} {b : BasicBlock} (hb : f[bi]? = some b)
    {j : Nat} {e : Handle × String} (he : (blockDefs bi b)[j]? = some e) :
    (catalog f).index e.1 = some (firstId f bi + j) ∧
      (catalog f).names (firstId f bi + j) = some e.2 := by
  have ok := catalog_ok f
  have hj : j < (blockDefs bi b).length := (List.getElem?_eq_some.1 he).1
  have hD := defs_getElem?_block hb hj
  rw [he] at hD
  constructor
  · rw [ok.index, hD]; rfl
  · rw [ok.names, hD]; rfl

theorem block_ids {f : Function} {bi : Nat} {b : BasicBlock} (hb : f[bi]? = some b) :
    (blockDefs bi b).map (idOf (catalog f)) =
      List.range' (firstId f bi) (blockDefs bi b).length := by
  apply List.ext_getElem?
  intro j
  by_cases hj : j < (blockDefs bi b).length
  · have he : (blockDefs bi b)[j]? = some (blockDefs bi b)[j] := List.getElem?_eq_getElem hj
    rw [List.getElem?_map, he, List.getElem?_range' _ _ hj]
    simp only [Option.map_some', idOf, StdMap.at, (block_index hb he).1, Option.getD_some]
    simp
  · rw [List.getElem?_eq_none (by simpa using hj), List.getElem?_eq_none (by simpa using hj)]

theorem names_idOf {f : Function} {bi : Nat} {b : BasicBlock} (hb : f[bi]? = some b)
    {e : Handle × String} (he : e ∈ blockDefs bi b) :
    (catalog f).names (idOf (catalog f) e) = some e.2 := by
  obtain ⟨j, hj⟩ := List.mem_iff_getElem?.1 he
  have := block_index hb hj
  simp only [idOf, StdMap.at, this.1, Option.getD_some, this.2]

theorem allvar_mem_iff (f : Function) (n : String) (d : Nat) :
    d ∈ (catalog f).allvar.at n [] ↔ (catalog f).names d = some n := by
  have ok := catalog_ok f
  rw [ok.allvar_mem, ok.names]

theorem names_hasName (f : Function) {d : Nat} {n : String} (h : (catalog f).names d = some n) :
    hasName n = true := by
  have ok := catalog_ok f
  rw [ok.names] at h
  cases hd : (defs f)[d]? with
  | none => rw [hd] at h; simp at h
  | some e =>
    rw [hd] at h
    simp only [Option.map_some', Option.some.injEq] at h
    have hmem : e ∈ defs f := List.mem_iff_getElem?.2 ⟨d, hd⟩
    have := (List.mem_filter.1 hmem).2
    rw [← h]; simpa using this

theorem allvar_eq_none_iff (f : Function) (n : String) :
    (catalog f).allvar n = none ↔ ∀ d, (catalog f).names d ≠ some n := by
  have ok := catalog_ok f
  rw [ok.allvar_none]
  constructor
  · intro h d; rw [ok.names]; exact h d
  · intro h d; rw [← ok.names]; exact h d

theorem allvar_block {f : Function} {bi : Nat} {b : BasicBlock} (hb : f[bi]? = some b)
    {e : Handle × String} (he : e ∈ blockStores bi b.insts) :
    (catalog f).allvar e.2 = none ↔ hasName e.2 = false := by
  rw [allvar_eq_none_iff]
  constructor
  · intro h
    by_contra hn
    have hn' : hasName e.2 = true := by simpa using hn
    have hmem : e ∈ blockDefs bi b := List.mem_filter.2 ⟨he, by simpa using hn'⟩
    exact h _ (names_idOf hb hmem)
  · intro hn d hd
    rw [names_hasName f hd] at hn
    exact absurd hn (by simp)

/-! ### The instruction loop -/

theorem mem_killOthers (gen others kill : List Nat) (o : Nat) :
    o ∈ killOthers gen others kill ↔ o ∈ kill ∨ (o ∈ others ∧ o ∉ gen) := by
  unfold killOthers
  induction others generalizing kill with
  | nil => simp
  | cons x xs ih =>
    rw [List.foldl_cons, ih]
    by_cases hx : x ∈ gen
    · simp only [if_pos hx, List.mem_cons]
      constructor
      · rintro (h | ⟨h1, h2⟩)
        · exact Or.inl h
        · exact Or.inr ⟨Or.inr h1, h2⟩
      · rintro (h | ⟨h1 | h1, h2⟩)
        · exact Or.inl h
        · subst h1; exact absurd hx h2
        · exact Or.inr ⟨h1, h2⟩
    · simp only [if_neg hx]
      by_cases hk : x ∈ kill
      · simp only [if_pos hk, List.mem_cons]
        constructor
        · rintro (h | ⟨h1, h2⟩)
          · exact Or.inl h
          · exact Or.inr ⟨Or.inr h1, h2⟩
        · rintro (h | ⟨h1 | h1, h2⟩)
          · exact Or.inl h
          · subst h1; exact Or.inl hk
          · exact Or.inr ⟨h1, h2⟩
      · simp only [if_neg hk, List.mem_append, List.mem_cons, List.not_mem_nil, or_false]
        constructor
        · rintro ((h | h) | ⟨h1, h2⟩)
          · exact Or.inl h
          · subst h; exact Or.inr ⟨Or.inl rfl, hx⟩
          · exact Or.inr ⟨Or.inr h1, h2⟩
        · rintro (h | ⟨h1 | h1, h2⟩)
          · exact Or.inl (Or.inl h)
          · exact Or.inl (Or.inr h1)
          · exact Or.inr ⟨h1, h2⟩

theorem killOthers_nodup (gen others kill : List Nat) (h : kill.Nodup) :
    (killOthers gen others kill).Nodup := by
  unfold killOthers
  induction others generalizing kill with
  | nil => simpa using h
  | cons x xs ih =>
    rw [List.foldl_cons]
    apply ih
    by_cases hx : x ∈ gen
    · simpa [hx] using h
    · by_cases hk : x ∈ kill
      · simpa [hx, hk] using h
      · simp only [if_neg hx, if_neg hk]
        rw [List.nodup_append]
        refine ⟨h, List.nodup_singleton _, ?_⟩
        intro a ha hb
        rw [List.mem_singleton] at hb
        subst hb; exact hk ha

theorem sort_eq_of_pairwise_lt {l : List Nat} (h : l.Pairwise (· < ·)) : sort l = l :=
  List.Sorted.insertionSort_eq (h.imp (fun h => Nat.le_of_lt h))

theorem genKillInst_named (c : Catalog) (G K : List Nat) (e : Handle × String)
    (hdef : c.allvar e.2 ≠ none) (hs : (G ++ [idOf c e]).Pairwise (· < ·)) :
    genKillInst c (G, K) e =
      (G ++ [idOf c e], killOthers (G ++ [idOf c e]) (c.allvar.at e.2 []) K) := by
  unfold genKillInst
  cases ha : c.allvar e.2 with
  | none => exact absurd ha hdef
  | some others =>
    have hnot : idOf c e ∉ G := by
      intro hmem
      have := (List.pairwise_append.1 hs).2.2 _ hmem _ (List.mem_singleton_self _)
      exact Nat.lt_irrefl _ this
    have hid : c.index.at e.1 0 = idOf c e := rfl
    have hoth : c.allvar.at e.2 [] = others := by simp [StdMap.at, ha]
    simp only [hid, if_neg hnot, sort_eq_of_pairwise_lt hs, hoth]

theorem genKill_foldl (c : Catalog) (S : List (Handle × String)) (G K : List Nat)
    (hdef : ∀ e ∈ S, c.allvar e.2 ≠ none)
    (hs : (G ++ S.map (idOf c)).Pairwise (· < ·)) :
    (S.foldl (genKillInst c) (G, K)).1 = G ++ S.map (idOf c) ∧
    (K.Nodup → (S.foldl (genKillInst c) (G, K)).2.Nodup) ∧
    ∀ o, o ∈ (S.foldl (genKillInst c) (G, K)).2 ↔
      o ∈ K ∨ ∃ l1 e l2, S = l1 ++ e :: l2 ∧ o ∈ c.allvar.at e.2 [] ∧
        o ∉ G ++ (l1 ++ [e]).map (idOf c) := by
  induction S generalizing G K with
  | nil => simp
  | cons e rest ih =>
    have hs1 : (G ++ [idOf c e]).Pairwise (· < ·) := by
      have : List.Sublist (G ++ [idOf c e]) (G ++ (e :: rest).map (idOf c)) := by
        apply List.Sublist.append_left
        simp
      exact hs.sublist this
    have hs2 : ((G ++ [idOf c e]) ++ rest.map (idOf c)).Pairwise (· < ·) := by
      simpa using hs
    rw [List.foldl_cons, genKillInst_named c G K e (hdef e (List.mem_cons_self _ _)) hs1]
    obtain ⟨h1, h2, h3⟩ := ih (G ++ [idOf c e])
      (killOthers (G ++ [idOf c e]) (c.allvar.at e.2 []) K)
      (fun x hx => hdef x (List.mem_cons_of_mem _ hx)) hs2
    refine ⟨by rw [h1]; simp, fun hK => h2 (killOthers_nodup _ _ _ hK), ?_⟩
    intro o
    rw [h3, mem_killOthers]
    constructor
    · rintro ((h | ⟨ha, hb⟩) | ⟨l1, e', l2, hsp, ha, hb⟩)
      · exact Or.inl h
      · exact Or.inr ⟨[], e, rest, rfl, ha, by simpa using hb⟩
      · refine Or.inr ⟨e :: l1, e', l2, by rw [hsp]; rfl, ha, ?_⟩
        simpa using hb
    · rintro (h | ⟨l1, e', l2, hsp, ha, hb⟩)
      · exact Or.inl (Or.inl h)
      · cases l1 with
        | nil =>
          simp only [List.nil_append, List.cons.injEq] at hsp
          obtain ⟨rfl, rfl⟩ := hsp
          exact Or.inl (Or.inr ⟨ha, by simpa using hb⟩)
        | cons x l1 =>
          simp only [List.cons_append, List.cons.injEq] at hsp
          obtain ⟨rfl, rfl⟩ := hsp
          exact Or.inr ⟨l1, e', l2, rfl, ha, by simpa using hb⟩

theorem foldl_filter_skip {α β : Type} (step : β → α → β) (p : α → Bool) (l : List α)
    (h : ∀ s, ∀ e ∈ l, p e = false → step s e = s) (s : β) :
    l.foldl step s = (l.filter p).foldl step s := by
  induction l generalizing s with
  | nil => rfl
  | cons x xs ih =>
    have ih' := ih (fun s e he => h s e (List.mem_cons_of_mem _ he))
    by_cases hp : p x = true
    · rw [List.filter_cons_of_pos hp, List.foldl_cons, List.foldl_cons, ih']
    · have hp' : p x = false := by simpa using hp
      rw [List.filter_cons_of_neg hp, List.foldl_cons, h s x (List.mem_cons_self _ _) hp', ih']

theorem genKillLoop_eq {f : Function} {bi : Nat} {b : BasicBlock} (hb : f[bi]? = some b) :
    genKillLoop (catalog f) bi b = (blockDefs bi b).foldl (genKillInst (catalog f)) ([], []) := by
  unfold genKillLoop blockDefs
  apply foldl_filter_skip
  intro s e he hp
  have := (allvar_block hb he).2 hp
  simp [genKillInst, this]

theorem block_ids_sorted {f : Function} {bi : Nat} {b : BasicBlock} (hb : f[bi]? = some b) :
    ((blockDefs bi b).map (idOf (catalog f))).Pairwise (· < ·) := by
  rw [block_ids hb]
  exact List.pairwise_lt_range' _ _

theorem genKillLoop_spec {f : Function} {bi : Nat} {b : BasicBlock} (hb : f[bi]? = some b) :
    (genKillLoop (catalog f) bi b).1 = (blockDefs bi b).map (idOf (catalog f)) ∧
    (genKillLoop (catalog f) bi b).2.Nodup ∧
    ∀ o, o ∈ (genKillLoop (catalog f) bi b).2 ↔
      ∃ l1 e l2, blockDefs bi b = l1 ++ e :: l2 ∧ (catalog f).names o = some e.2 ∧
        o ∉ (l1 ++ [e]).map (idOf (catalog f)) := by
  rw [genKillLoop_eq hb]
  have hdef : ∀ e ∈ blockDefs bi b, (catalog f).allvar e.2 ≠ none := by
    intro e he h
    have h1 := List.mem_filter.1 he
    have := (allvar_block hb h1.1).1 h
    simp [this] at h1
  obtain ⟨h1, h2, h3⟩ := genKill_foldl (catalog f) (blockDefs bi b) [] [] hdef
    (by simpa using block_ids_sorted hb)
  refine ⟨by simpa using h1, h2 List.nodup_nil, ?_⟩
  intro o
  rw [h3]
  simp only [List.not_mem_nil, false_or, List.nil_append, allvar_mem_iff]

/-! ### The deletion loop -/

theorem pruneInner_spec (k : Nat) (gs kill kill' : List Nat)
    (h : pruneInner k gs kill = some kill') :
    List.Sublist kill' kill ∧ ∀ x ∈ kill, x ∉ gs → x ∈ kill' := by
  induction gs generalizing kill with
  | nil =>
    simp only [pruneInner, Option.some.injEq] at h
    subst h
    exact ⟨List.Sublist.refl _, fun x hx _ => hx⟩
  | cons g gs ih =>
    unfold pruneInner at h
    cases hv : kill.get? k with
    | none => rw [hv] at h; simp at h
    | some v =>
      rw [hv] at h
      simp only at h
      have hv' : kill[k]? = some v := by simpa using hv
      by_cases hvg : v = g
      · rw [if_pos hvg] at h
        obtain ⟨h1, h2⟩ := ih _ h
        refine ⟨h1.trans (List.eraseIdx_sublist _ _), ?_⟩
        intro x hx hxg
        apply h2 x _ (fun hm => hxg (List.mem_cons_of_mem _ hm))
        rw [List.mem_eraseIdx_iff_getElem?]
        obtain ⟨i, hi⟩ := List.mem_iff_getElem?.1 hx
        refine ⟨i, ?_, hi⟩
        rintro rfl
        rw [hv'] at hi
        have : v = x := Option.some.inj hi
        exact hxg (by rw [← this, hvg]; exact List.mem_cons_self _ _)
      · rw [if_neg hvg] at h
        obtain ⟨h1, h2⟩ := ih _ h
        exact ⟨h1, fun x hx hxg => h2 x hx (fun hm => hxg (List.mem_cons_of_mem _ hm))⟩

theorem pruneLoop_spec (gen : List Nat) (n k : Nat) (kill kill' : List Nat)
    (h : pruneLoop gen n k kill = some kill') :
    List.Sublist kill' kill ∧ ∀ x ∈ kill, x ∉ gen → x ∈ kill' := by
  induction n generalizing k kill with
  | zero =>
    unfold pruneLoop at h
    by_cases hk : k = kill.length
    · rw [if_pos hk] at h
      simp only [Option.some.injEq] at h
      subst h
      exact ⟨List.Sublist.refl _, fun x hx _ => hx⟩
    · rw [if_neg hk] at h; simp at h
  | succ n ih =>
    unfold pruneLoop at h
    by_cases hk : k = kill.length
    · rw [if_pos hk] at h
      simp only [Option.some.injEq] at h
      subst h
      exact ⟨List.Sublist.refl _, fun x hx _ => hx⟩
    · rw [if_neg hk] at h
      by_cases hlt : kill.length < k
      · rw [if_pos hlt] at h; simp at h
      · rw [if_neg hlt] at h
        cases hin : pruneInner k gen kill with
        | none => rw [hin] at h; simp at h
        | some kill1 =>
          rw [hin] at h
          simp only at h
          obtain ⟨a1, a2⟩ := pruneInner_spec _ _ _ _ hin
          obtain ⟨b1, b2⟩ := ih _ _ h
          exact ⟨b1.trans a1, fun x hx hg => b2 x (a2 x hx hg) hg⟩

theorem pruneInner_noop (k : Nat) (gs kill : List Nat) (v : Nat) (hk : kill[k]? = some v)
    (hv : v ∉ gs) : pruneInner k gs kill = some kill := by
  induction gs with
  | nil => rfl
  | cons g gs ih =>
    unfold pruneInner
    have : kill.get? k = some v := by simpa using hk
    rw [this]
    have hvg : v ≠ g := fun h => hv (by rw [h]; exact List.mem_cons_self _ _)
    simp only [if_neg hvg]
    exact ih (fun hm => hv (List.mem_cons_of_mem _ hm))

theorem pruneLoop_noop (gen : List Nat) (n k : Nat) (kill : List Nat)
    (hdis : ∀ x ∈ kill, x ∉ gen) (hk : k ≤ kill.length) (hn : kill.length ≤ k + n) :
    pruneLoop gen n k kill = some kill := by
  induction n generalizing k with
  | zero =>
    unfold pruneLoop
    rw [if_pos (by omega)]
  | succ n ih =>
    unfold pruneLoop
    by_cases hk' : k = kill.length
    · rw [if_pos hk']
    · rw [if_neg hk', if_neg (by omega)]
      have hlt : k < kill.length := by omega
      have hget : kill[k]? = some kill[k] := List.getElem?_eq_getElem hlt
      rw [pruneInner_noop k gen kill _ hget (hdis _ (List.getElem_mem _))]
      exact ih (k + 1) (by omega) (by omega)

/-- The bound on the iterations of the deletion loop does not matter once it
is at least `kill.length - k`: the loop ends, normally or out of range, within
that many iterations. -/
theorem pruneLoop_fuel (gen : List Nat) (n m k : Nat) (kill : List Nat)
    (hn : kill.length ≤ k + n) (hm : kill.length ≤ k + m) :
    pruneLoop gen n k kill = pruneLoop gen m k kill := by
  induction n generalizing m k kill with
  | zero =>
    cases m with
    | zero => rfl
    | succ m =>
      unfold pruneLoop
      by_cases hk : k = kill.length
      · simp [hk]
      · rw [if_neg hk, if_neg hk, if_pos (by omega)]
  | succ n ih =>
    by_cases hk : k = kill.length
    · cases m with
      | zero => unfold pruneLoop; simp [hk]
      | succ m => unfold pruneLoop; simp [hk]
    · by_cases hlt : kill.length < k
      · cases m with
        | zero => unfold pruneLoop; simp [hk, hlt]
        | succ m => unfold pruneLoop; simp [hk, hlt]
      · cases m with
        | zero => omega
        | succ m =>
          unfold pruneLoop
          rw [if_neg hk, if_neg hlt, if_neg hk, if_neg hlt]
          cases hin : pruneInner k gen kill with
          | none => rfl
          | some kill' =>
            have hlen : kill'.length ≤ kill.length := (pruneInner_spec _ _ _ _ hin).1.length_le
            exact ih m (k + 1) kill' (by omega) (by omega)

theorem sort_pairwise_lt {l : List Nat} (h : l.Nodup) : (sort l).Pairwise (· < ·) := by
  have h1 : (sort l).Sorted (· ≤ ·) := List.sorted_insertionSort _ l
  have h2 : (sort l).Nodup := (List.perm_insertionSort _ l).nodup_iff.2 h
  exact h1.lt_of_le h2

theorem mem_sort {l : List Nat} {x : Nat} : x ∈ sort l ↔ x ∈ l :=
  List.mem_insertionSort _

theorem summarize_spec {c : Catalog} {bi : Nat} {b : BasicBlock} {gen kill : List Nat}
    (h : summarize c bi b = .ok (gen, kill)) :
    gen = (genKillLoop c bi b).1 ∧
    ((genKillLoop c bi b).2.Nodup → kill.Pairwise (· < ·)) ∧
    (∀ o ∈ kill, o ∈ (genKillLoop c bi b).2) ∧
    (∀ o ∈ (genKillLoop c bi b).2, o ∉ gen → o ∈ kill) := by
  unfold summarize pruneKill at h
  cases hp : pruneLoop (genKillLoop c bi b).1 (genKillLoop c bi b).2.length 0 (genKillLoop c bi b).2 with
  | none => simp [hp] at h
  | some k' =>
    simp only [hp, Option.map_some', Except.ok.injEq, Prod.mk.injEq] at h
    obtain ⟨h1, h2⟩ := h
    obtain ⟨a1, a2⟩ := pruneLoop_spec _ _ _ _ _ hp
    subst h1 h2
    refine ⟨rfl, fun hnd => sort_pairwise_lt (hnd.sublist a1), ?_, ?_⟩
    · intro o ho
      exact a1.subset (mem_sort.1 ho)
    · intro o ho hg
      exact mem_sort.2 (a2 o ho hg)

theorem summarize_noop {c : Catalog} {bi : Nat} {b : BasicBlock}
    (hdis : ∀ x ∈ (genKillLoop c bi b).2, x ∉ (genKillLoop c bi b).1) :
    summarize c bi b = .ok ((genKillLoop c bi b).1, sort (genKillLoop c bi b).2) := by
  unfold summarize pruneKill
  simp only
  rw [pruneLoop_noop _ _ _ _ hdis (Nat.zero_le _) (by omega)]
  rfl

theorem mem_blockDefs {bi : Nat} {b : BasicBlock} {e : Handle × String} :
    e ∈ blockDefs bi b ↔ e.1.1 = bi ∧ b.insts[e.1.2]? = some e.2 ∧ hasName e.2 = true := by
  unfold blockDefs
  rw [List.mem_filter, mem_blockStores]
  simp [and_assoc]

theorem mem_gen_iff {f : Function} {bi : Nat} {b : BasicBlock} (hb : f[bi]? = some b) (d : Nat) :
    d ∈ (genKillLoop (catalog f) bi b).1 ↔
      ∃ p nm, b.insts[p]? = some nm ∧ hasName nm = true ∧ (catalog f).index (bi, p) = some d := by
  rw [(genKillLoop_spec hb).1, List.mem_map]
  constructor
  · rintro ⟨e, he, hd⟩
    obtain ⟨j, hj⟩ := List.mem_iff_getElem?.1 he
    have hi := (block_index hb hj).1
    obtain ⟨h1, h2, h3⟩ := mem_blockDefs.1 he
    refine ⟨e.1.2, e.2, h2, h3, ?_⟩
    have : (bi, e.1.2) = e.1 := by rw [← h1]
    rw [this, hi, ← hd]
    simp [idOf, StdMap.at, hi]
  · rintro ⟨p, nm, h1, h2, h3⟩
    refine ⟨((bi, p), nm), mem_blockDefs.2 ⟨rfl, h1, h2⟩, ?_⟩
    simp [idOf, StdMap.at, h3]

/-! ### Collect IN -/

theorem mem_addPout (inn pout : List Nat) (x : Nat) :
    x ∈ addPout inn pout ↔ x ∈ inn ∨ x ∈ pout := by
  unfold addPout
  induction pout generalizing inn with
  | nil => simp
  | cons a as ih =>
    rw [List.foldl_cons, ih]
    by_cases ha : a ∈ inn
    · simp only [if_pos ha, List.mem_cons]
      constructor
      · rintro (h | h)
        · exact Or.inl h
        · exact Or.inr (Or.inr h)
      · rintro (h | h | h)
        · exact Or.inl h
        · subst h; exact Or.inl ha
        · exact Or.inr h
    · simp only [if_neg ha, List.mem_append, List.mem_cons, List.not_mem_nil, or_false]
      constructor
      · rintro ((h | h) | h)
        · exact Or.inl h
        · exact Or.inr (Or.inl h)
        · exact Or.inr (Or.inr h)
      · rintro (h | h | h)
        · exact Or.inl (Or.inl h)
        · exact Or.inl (Or.inr h)
        · exact Or.inr h

theorem addPout_nodup (inn pout : List Nat) (h : inn.Nodup) : (addPout inn pout).Nodup := by
  unfold addPout
  induction pout generalizing inn with
  | nil => simpa using h
  | cons a as ih =>
    rw [List.foldl_cons]
    apply ih
    by_cases ha : a ∈ inn
    · simpa [ha] using h
    · simp only [if_neg ha]
      rw [List.nodup_append]
      refine ⟨h, List.nodup_singleton _, ?_⟩
      intro x hx hb
      rw [List.mem_singleton] at hb
      subst hb; exact ha hx

theorem collectIn_foldl (outs : StdMap Nat (List Nat)) (preds inn : List Nat) (h : inn.Nodup) :
    (preds.foldl (fun inn predecessor => addPout inn (outs.at predecessor [])) inn).Nodup ∧
    ∀ d, d ∈ preds.foldl (fun inn predecessor => addPout inn (outs.at predecessor [])) inn ↔
      d ∈ inn ∨ ∃ p ∈ preds, d ∈ outs.at p [] := by
  induction preds generalizing inn with
  | nil => simpa using h
  | cons p ps ih =>
    rw [List.foldl_cons]
    obtain ⟨h1, h2⟩ := ih (addPout inn (outs.at p [])) (addPout_nodup _ _ h)
    refine ⟨h1, ?_⟩
    intro d
    rw [h2, mem_addPout]
    simp only [List.mem_cons, exists_eq_or_imp]
    tauto

theorem mem_collectIn (outs : StdMap Nat (List Nat)) (preds : List Nat) (d : Nat) :
    d ∈ collectIn outs preds ↔ ∃ p ∈ preds, d ∈ outs.at p [] := by
  unfold collectIn
  rw [mem_sort, (collectIn_foldl outs preds [] List.nodup_nil).2]
  simp

theorem collectIn_sorted (outs : StdMap Nat (List Nat)) (preds : List Nat) :
    (collectIn outs preds).Pairwise (· < ·) :=
  sort_pairwise_lt (collectIn_foldl outs preds [] List.nodup_nil).1

theorem collectIn_nil (outs : StdMap Nat (List Nat)) : collectIn outs [] = [] := rfl

theorem collectIn_foldl_congr (outs outs' : StdMap Nat (List Nat)) (preds inn : List Nat)
    (h : ∀ p ∈ preds, outs p = outs' p) :
    preds.foldl (fun inn predecessor => addPout inn (outs.at predecessor [])) inn =
      preds.foldl (fun inn predecessor => addPout inn (outs'.at predecessor [])) inn := by
  induction preds generalizing inn with
  | nil => rfl
  | cons p ps ih =>
    rw [List.foldl_cons, List.foldl_cons]
    have hp : outs.at p [] = outs'.at p [] := by
      simp only [StdMap.at, h p (List.mem_cons_self _ _)]
    rw [hp]
    exact ih _ (fun q hq => h q (List.mem_cons_of_mem _ hq))

theorem collectIn_congr (outs outs' : StdMap Nat (List Nat)) (preds : List Nat)
    (h : ∀ p ∈ preds, outs p = outs' p) : collectIn outs preds = collectIn outs' preds := by
  unfold collectIn
  rw [collectIn_foldl_congr outs outs' preds [] h]

/-! ### Collect OUT -/

theorem eraseFriends_spec (friends intemp : List Nat) (h : intemp.Nodup) :
    (eraseFriends friends intemp).Nodup ∧
    ∀ x, x ∈ eraseFriends friends intemp ↔ x ∈ intemp ∧ x ∉ friends := by
  unfold eraseFriends
  induction friends generalizing intemp with
  | nil => simpa using h
  | cons a as ih =>
    rw [List.foldl_cons]
    obtain ⟨h1, h2⟩ := ih (intemp.erase a) (h.erase a)
    refine ⟨h1, ?_⟩
    intro x
    rw [h2, h.mem_erase_iff]
    simp only [List.mem_cons, not_or]
    tauto

theorem outFold_spec (c : Catalog) (gs intemp : List Nat) (h : intemp.Nodup)
    (hself : ∀ g ∈ gs, g ∈ friendsOf c g) :
    (gs.foldl (fun intemp g => eraseFriends (friendsOf c g) intemp ++ [g]) intemp).Nodup ∧
    ∀ d, d ∈ gs.foldl (fun intemp g => eraseFriends (friendsOf c g) intemp ++ [g]) intemp ↔
      (d ∈ intemp ∧ ∀ g ∈ gs, d ∉ friendsOf c g) ∨
      ∃ l1 l2, gs = l1 ++ d :: l2 ∧ ∀ g ∈ l2, d ∉ friendsOf c g := by
  induction gs generalizing intemp with
  | nil => simpa using h
  | cons g gs ih =>
    rw [List.foldl_cons]
    obtain ⟨e1, e2⟩ := eraseFriends_spec (friendsOf c g) intemp h
    have hg : g ∉ eraseFriends (friendsOf c g) intemp := by
      rw [e2]
      intro hh
      exact hh.2 (hself g (List.mem_cons_self _ _))
    have hnd : (eraseFriends (friendsOf c g) intemp ++ [g]).Nodup := by
      rw [List.nodup_append]
      refine ⟨e1, List.nodup_singleton _, ?_⟩
      intro x hx hb
      rw [List.mem_singleton] at hb
      subst hb; exact hg hx
    obtain ⟨h1, h2⟩ := ih _ hnd (fun x hx => hself x (List.mem_cons_of_mem _ hx))
    refine ⟨h1, ?_⟩
    intro d
    rw [h2]
    simp only [List.mem_append, e2, List.mem_cons, List.not_mem_nil, or_false]
    constructor
    · rintro (⟨h3 | h3, h4⟩ | ⟨l1, l2, hsp, h4⟩)
      · left
        refine ⟨h3.1, ?_⟩
        intro x hx
        rcases hx with rfl | hx
        · exact h3.2
        · exact h4 x hx
      · right
        exact ⟨[], gs, by rw [h3]; rfl, h4⟩
      · right
        exact ⟨g :: l1, l2, by rw [hsp]; rfl, h4⟩
    · rintro (⟨h3, h4⟩ | ⟨l1, l2, hsp, h4⟩)
      · left
        exact ⟨Or.inl ⟨h3, h4 g (Or.inl rfl)⟩, fun x hx => h4 x (Or.inr hx)⟩
      · cases l1 with
        | nil =>
          simp only [List.nil_append, List.cons.injEq] at hsp
          obtain ⟨rfl, rfl⟩ := hsp
          left
          exact ⟨Or.inr rfl, h4⟩
        | cons x l1 =>
          simp only [List.cons_append, List.cons.injEq] at hsp
          obtain ⟨rfl, rfl⟩ := hsp
          right
          exact ⟨l1, l2, rfl, h4⟩

theorem collectOut_eq (c : Catalog) (myGen inn : List Nat) :
    collectOut c myGen inn =
      sort (myGen.foldl (fun intemp g => eraseFriends (friendsOf c g) intemp ++ [g]) inn) := rfl

theorem mem_lastDefsOf (S : List (Handle × String)) (e : Handle × String) :
    e ∈ lastDefsOf S ↔ ∃ l1 l2, S = l1 ++ e :: l2 ∧ ∀ e' ∈ l2, e'.2 ≠ e.2 := by
  induction S with
  | nil => simp [lastDefsOf]
  | cons x rest ih =>
    unfold lastDefsOf
    by_cases hany : rest.any (fun e' => e'.2 == x.2) = true
    · rw [if_pos hany, ih]
      constructor
      · rintro ⟨l1, l2, hsp, h⟩
        exact ⟨x :: l1, l2, by rw [hsp]; rfl, h⟩
      · rintro ⟨l1, l2, hsp, h⟩
        cases l1 with
        | nil =>
          simp only [List.nil_append, List.cons.injEq] at hsp
          obtain ⟨rfl, rfl⟩ := hsp
          rw [List.any_eq_true] at hany
          obtain ⟨y, hy, hyx⟩ := hany
          exact absurd (by simpa using hyx) (h y hy)
        | cons y l1 =>
          simp only [List.cons_append, List.cons.injEq] at hsp
          obtain ⟨rfl, rfl⟩ := hsp
          exact ⟨l1, l2, rfl, h⟩
    · rw [if_neg hany, List.mem_cons, ih]
      constructor
      · rintro (rfl | ⟨l1, l2, hsp, h⟩)
        · refine ⟨[], rest, rfl, ?_⟩
          intro y hy hyx
          apply hany
          rw [List.any_eq_true]
          exact ⟨y, hy, by simpa using hyx⟩
        · exact ⟨x :: l1, l2, by rw [hsp]; rfl, h⟩
      · rintro ⟨l1, l2, hsp, h⟩
        cases l1 with
        | nil =>
          simp only [List.nil_append, List.cons.injEq] at hsp
          exact Or.inl hsp.1.symm
        | cons y l1 =>
          simp only [List.cons_append, List.cons.injEq] at hsp
          obtain ⟨rfl, rfl⟩ := hsp
          exact Or.inr ⟨l1, l2, rfl, h⟩

theorem friendsOf_idOf {f : Function} {bi : Nat} {b : BasicBlock} (hb : f[bi]? = some b)
    {e : Handle × String} (he : e ∈ blockDefs bi b) (d : Nat) :
    d ∈ friendsOf (catalog f) (idOf (catalog f) e) ↔ (catalog f).names d = some e.2 := by
  unfold friendsOf
  have : (catalog f).names.at (idOf (catalog f) e) "" = e.2 := by
    simp [StdMap.at, names_idOf hb he]
  rw [this, allvar_mem_iff]

/-- Membership in the `out` computed for a block from `gen` and `in`. -/
theorem mem_collectOut {f : Function} {bi : Nat} {b : BasicBlock} (hb : f[bi]? = some b)
    (inn : List Nat) (hinn : inn.Nodup) (d : Nat) :
    d ∈ collectOut (catalog f) (genKillLoop (catalog f) bi b).1 inn ↔
      d ∈ lastIds (catalog f) bi b ∨
        (d ∈ inn ∧ ∀ e ∈ blockDefs bi b, (catalog f).names d ≠ some e.2) := by
  rw [collectOut_eq, mem_sort, (genKillLoop_spec hb).1]
  have hself : ∀ g ∈ (blockDefs bi b).map (idOf (catalog f)), g ∈ friendsOf (catalog f) g := by
    intro g hg
    obtain ⟨e, he, rfl⟩ := List.mem_map.1 hg
    rw [friendsOf_idOf hb he]; exact names_idOf hb he
  rw [(outFold_spec (catalog f) _ inn hinn hself).2]
  constructor
  · rintro (⟨h1, h2⟩ | ⟨l1, l2, hsp, h2⟩)
    · right
      refine ⟨h1, ?_⟩
      intro e he hn
      exact h2 _ (List.mem_map_of_mem _ he) ((friendsOf_idOf hb he d).2 hn)
    · left
      obtain ⟨m1, m2, hS, hm1, hm2⟩ := List.map_eq_append_iff.1 hsp
      obtain ⟨e, m3, hm3, hde, hm3'⟩ := List.map_eq_cons_iff.1 hm2
      subst hm3
      have heS : e ∈ blockDefs bi b := by rw [hS]; simp
      unfold lastIds
      rw [List.mem_map]
      refine ⟨e, ?_, hde⟩
      rw [mem_lastDefsOf]
      refine ⟨m1, m3, hS, ?_⟩
      intro e' he' hnm
      have he'S : e' ∈ blockDefs bi b := by rw [hS]; simp [he']
      apply h2 (idOf (catalog f) e') (by rw [← hm3']; exact List.mem_map_of_mem _ he')
      rw [friendsOf_idOf hb he'S, ← hde, names_idOf hb heS, hnm]
  · rintro (h | ⟨h1, h2⟩)
    · right
      unfold lastIds at h
      obtain ⟨e, he, hde⟩ := List.mem_map.1 h
      obtain ⟨l1, l2, hS, hl2⟩ := (mem_lastDefsOf _ _).1 he
      have heS : e ∈ blockDefs bi b := by rw [hS]; simp
      refine ⟨l1.map (idOf (catalog f)), l2.map (idOf (catalog f)), by rw [hS, ← hde]; simp, ?_⟩
      intro g hg
      obtain ⟨e', he', rfl⟩ := List.mem_map.1 hg
      have he'S : e' ∈ blockDefs bi b := by rw [hS]; simp [he']
      rw [friendsOf_idOf hb he'S, ← hde, names_idOf hb heS]
      intro hh
      exact hl2 e' he' (Option.some.inj hh).symm
    · left
      refine ⟨h1, ?_⟩
      intro g hg
      obtain ⟨e, he, rfl⟩ := List.mem_map.1 hg
      rw [friendsOf_idOf hb he]
      exact h2 e he

theorem collectOut_sorted {f : Function} {bi : Nat} {b : BasicBlock} (hb : f[bi]? = some b)
    (inn : List Nat) (hinn : inn.Nodup) :
    (collectOut (catalog f) (genKillLoop (catalog f) bi b).1 inn).Pairwise (· < ·) := by
  rw [collectOut_eq, (genKillLoop_spec hb).1]
  have hself : ∀ g ∈ (blockDefs bi b).map (idOf (catalog f)), g ∈ friendsOf (catalog f) g := by
    intro g hg
    obtain ⟨e, he, rfl⟩ := List.mem_map.1 hg
    rw [friendsOf_idOf hb he]; exact names_idOf hb he
  exact sort_pairwise_lt (outFold_spec (catalog f) _ inn hinn hself).1

/-! ### The loop over the basic blocks -/

theorem summarizeBlocks_spec (c : Catalog) (l : List BasicBlock) (k : Nat) (s0 s : Summary)
    (h : summarizeBlocks c (l.enumFrom k) s0 = .ok s)
    (hfresh : ∀ j, k ≤ j → s0.gens j = none ∧ s0.kills j = none) :
    s.basicblocks = s0.basicblocks ++ List.range' k l.length ∧
    (∀ j, j < k → s.gens j = s0.gens j ∧ s.kills j = s0.kills j) ∧
    (∀ j b, l[j]? = some b → ∃ gen kill, summarize c (k + j) b = .ok (gen, kill) ∧
      s.gens (k + j) = some gen ∧ s.kills (k + j) = some kill) := by
  induction l generalizing k s0 with
  | nil =>
    simp only [List.enumFrom_nil, summarizeBlocks, Except.ok.injEq] at h
    subst h
    simp
  | cons b rest ih =>
    rw [List.enumFrom_cons] at h
    unfold summarizeBlocks at h
    cases hsum : summarize c k b with
    | error err => simp [hsum] at h
    | ok gk =>
      simp only [hsum] at h
      have hk := hfresh k (Nat.le_refl _)
      obtain ⟨h1, h2, h3⟩ := ih (k + 1) _ h (by
        intro j hj
        have hne : j ≠ k := by omega
        have := hfresh j (by omega)
        simp [StdMap.insert, hne, this])
      refine ⟨?_, ?_, ?_⟩
      · rw [h1]
        simp [List.range'_succ]
      · intro j hj
        have hne : j ≠ k := by omega
        have := h2 j (by omega)
        simpa [StdMap.insert, hne] using this
      · intro j b' hj
        cases j with
        | zero =>
          simp only [List.getElem?_cons_zero, Option.some.injEq] at hj
          subst hj
          have := h2 k (by omega)
          refine ⟨gk.1, gk.2, by simpa using hsum, ?_, ?_⟩
          · rw [Nat.add_zero, this.1]; simp [StdMap.insert, hk.1]
          · rw [Nat.add_zero, this.2]; simp [StdMap.insert, hk.2]
        | succ j =>
          simp only [List.getElem?_cons_succ] at hj
          have := h3 j b' hj
          rw [show k + 1 + j = k + (j + 1) by omega] at this
          exact this

theorem sumOK_of_run {f : Function} {s : Summary}
    (h : summarizeBlocks (catalog f) f.enum Summary.init = .ok s) : SumOK f s := by
  obtain ⟨h1, -, h3⟩ := summarizeBlocks_spec (catalog f) f 0 Summary.init s h
    (by intro j _; exact ⟨rfl, rfl⟩)
  constructor
  · rw [h1, List.range_eq_range']; simp [Summary.init]
  · intro bi b hb
    simpa using h3 bi b hb

/-! ### The solver -/

theorem predecessorNotProceed_foldl (outs : StdMap Nat (List Nat)) (preds : List Nat)
    (flag : Bool) :
    preds.foldl (fun flag p => if outs p = none then true else flag) flag = true ↔
      flag = true ∨ ∃ p ∈ preds, outs p = none := by
  induction preds generalizing flag with
  | nil => simp
  | cons p ps ih =>
    rw [List.foldl_cons, ih]
    by_cases hp : outs p = none
    · simp [hp]
    · simp [hp]

theorem predecessorNotProceed_iff (outs : StdMap Nat (List Nat)) (preds : List Nat) :
    predecessorNotProceed outs preds = true ↔ ∃ p ∈ preds, outs p = none := by
  unfold predecessorNotProceed
  rw [predecessorNotProceed_foldl]
  simp

theorem ready_iff (outs : StdMap Nat (List Nat)) (preds : List Nat) :
    ¬ (preds ≠ [] ∧ predecessorNotProceed outs preds = true) ↔ ∀ p ∈ preds, outs p ≠ none := by
  rw [predecessorNotProceed_iff]
  constructor
  · intro h p hp hn
    exact h ⟨List.ne_nil_of_mem hp, p, hp, hn⟩
  · rintro h ⟨-, p, hp, hn⟩
    exact h p hp hn

theorem resolve_outs (f : Function) (c : Catalog) (s : Summary) (fl : Flow) (temp : Nat)
    (hun : fl.outs temp = none) (b : Nat) :
    (resolve f c s fl temp).outs b =
      if b = temp then
        some (collectOut c (s.gens.at temp []) (collectIn fl.outs (predsOf f temp)))
      else fl.outs b := by
  unfold resolve
  exact StdMap.insert_of_absent _ _ _ hun b

theorem resolve_ok {f : Function} {c : Catalog} {s : Summary} {fl : Flow} {temp : Nat}
    (h : FlowOK f c s fl) (hun : fl.outs temp = none)
    (hready : ∀ p ∈ predsOf f temp, fl.outs p ≠ none) :
    FlowOK f c s (resolve f c s fl temp) := by
  have houts := resolve_outs f c s fl temp hun
  have hins : ∀ b, (resolve f c s fl temp).ins b =
      if b = temp then some (collectIn fl.outs (predsOf f temp)) else fl.ins b := by
    intro b
    unfold resolve
    exact StdMap.insert_of_absent _ _ _ (h.ins_none _ hun) b
  have hkeep : ∀ b, fl.outs b ≠ none → (resolve f c s fl temp).outs b = fl.outs b := by
    intro b hb
    rw [houts]
    have : b ≠ temp := by rintro rfl; exact hb hun
    simp [this]
  have hcongr : ∀ b, (∀ p ∈ predsOf f b, fl.outs p ≠ none) →
      collectIn (resolve f c s fl temp).outs (predsOf f b) = collectIn fl.outs (predsOf f b) := by
    intro b hb
    apply collectIn_congr
    intro p hp
    exact hkeep p (hb p hp)
  constructor
  · intro b hb
    rw [houts] at hb
    rw [hins]
    by_cases hbt : b = temp
    · simp [hbt] at hb
    · simp only [if_neg hbt] at hb ⊢
      exact h.ins_none b hb
  · intro b hb
    by_cases hbt : b = temp
    · subst hbt
      refine ⟨fun p hp => by rw [hkeep p (hready p hp)]; exact hready p hp, ?_, ?_⟩
      · rw [hins, if_pos rfl, hcongr b hready]
      · rw [houts, if_pos rfl, hcongr b hready]
    · rw [houts, if_neg hbt] at hb
      obtain ⟨h1, h2, h3⟩ := h.eqns b hb
      refine ⟨fun p hp => by rw [hkeep p (h1 p hp)]; exact h1 p hp, ?_, ?_⟩
      · rw [hins, if_neg hbt, hcongr b h1, h2]
      · rw [houts, if_neg hbt, hcongr b h1, h3]
  · obtain ⟨rank, N, hr⟩ := h.ranked
    refine ⟨fun b => if b = temp then N else rank b, N + 1, ?_⟩
    intro b hb
    have hpred : ∀ p, fl.outs p ≠ none → (if p = temp then N else rank p) = rank p := by
      intro p hp
      have : p ≠ temp := by rintro rfl; exact hp hun
      simp [this]
    by_cases hbt : b = temp
    · subst hbt
      simp only [if_true]
      refine ⟨Nat.lt_succ_self _, ?_⟩
      intro p hp
      rw [hpred p (hready p hp)]
      exact (hr p (hready p hp)).1
    · rw [houts, if_neg hbt] at hb
      simp only [if_neg hbt]
      obtain ⟨h1, h2⟩ := hr b hb
      refine ⟨by omega, ?_⟩
      intro p hp
      rw [hpred p ((h.eqns b hb).1 p hp)]
      exact h2 p hp

theorem tracePass_cons_wait (f : Function) (c : Catalog) (s : Summary) (temp : Nat)
    (rest kept : List Nat) (fl : Flow)
    (h : ¬ ∀ p ∈ predsOf f temp, fl.outs p ≠ none) :
    tracePass f c s (temp :: rest) kept fl = tracePass f c s rest (kept ++ [temp]) fl := by
  have := (ready_iff fl.outs (predsOf f temp)).not.2 h
  rw [not_not] at this
  rw [tracePass, if_pos this]

theorem tracePass_cons_ready (f : Function) (c : Catalog) (s : Summary) (temp : Nat)
    (rest kept : List Nat) (fl : Flow)
    (h : ∀ p ∈ predsOf f temp, fl.outs p ≠ none) :
    tracePass f c s (temp :: rest) kept fl = tracePass f c s rest kept (resolve f c s fl temp) := by
  have := (ready_iff fl.outs (predsOf f temp)).2 h
  rw [tracePass, if_neg this]
  rfl

theorem tracePass_ok {f : Function} {c : Catalog} {s : Summary} {all : List Nat}
    (rest kept : List Nat) (fl : Flow)
    (h : FlowOK f c s fl) (hp : PendingOK fl all (kept ++ rest)) :
    FlowOK f c s (tracePass f c s rest kept fl).2 ∧
      PendingOK (tracePass f c s rest kept fl).2 all (tracePass f c s rest kept fl).1 := by
  induction rest generalizing kept fl with
  | nil =>
    simp only [tracePass]
    exact ⟨h, by simpa using hp⟩
  | cons temp rest ih =>
    by_cases hready : ∀ p ∈ predsOf f temp, fl.outs p ≠ none
    · rw [tracePass_cons_ready f c s temp rest kept fl hready]
      have hun : fl.outs temp = none := hp.unresolved temp (by simp)
      apply ih kept _ (resolve_ok h hun hready)
      have hnd := hp.nodup
      have hnot : temp ∉ kept ++ rest := by
        rw [List.nodup_append] at hnd
        rw [List.mem_append]
        rintro (hk | hr)
        · exact hnd.2.2 hk (List.mem_cons_self _ _) 
        · exact (List.nodup_cons.1 hnd.2.1).1 hr
      constructor
      · exact hnd.sublist (List.Sublist.append_left (List.sublist_cons_self _ _) _)
      · intro b hb
        rw [resolve_outs f c s fl temp hun]
        have hbt : b ≠ temp := by rintro rfl; exact hnot hb
        rw [if_neg hbt]
        apply hp.unresolved
        rw [List.mem_append] at hb ⊢
        exact hb.imp id (List.mem_cons_of_mem _)
      · intro b hb
        rw [resolve_outs f c s fl temp hun]
        by_cases hbt : b = temp
        · right; simp [hbt]
        · rw [if_neg hbt]
          rcases hp.covered b hb with h1 | h1
          · left
            rw [List.mem_append, List.mem_cons] at h1
            rw [List.mem_append]
            rcases h1 with h1 | h1 | h1
            · exact Or.inl h1
            · exact absurd h1 hbt
            · exact Or.inr h1
          · exact Or.inr h1
      · intro b hb
        apply hp.inside
        rw [List.mem_append] at hb ⊢
        exact hb.imp id (List.mem_cons_of_mem _)
      · intro b hb
        rw [resolve_outs f c s fl temp hun] at hb
        by_cases hbt : b = temp
        · rw [hbt]; exact hp.inside temp (by simp)
        · rw [if_neg hbt] at hb
          exact hp.resolved_in b hb
    · rw [tracePass_cons_wait f c s temp rest kept fl hready]
      apply ih (kept ++ [temp]) fl h
      simpa using hp

theorem trace_ok {f : Function} {c : Catalog} {s : Summary} {all : List Nat}
    (fuel : Nat) (P : List Nat) (fl fl' : Flow)
    (hrun : trace f c s fuel P fl = .ok fl')
    (h : FlowOK f c s fl) (hp : PendingOK fl all P) :
    FlowOK f c s fl' ∧ (∀ b ∈ all, fl'.outs b ≠ none) ∧ ∀ b, fl'.outs b ≠ none → b ∈ all := by
  induction fuel generalizing P fl with
  | zero =>
    cases P with
    | nil =>
      simp only [trace, Except.ok.injEq] at hrun
      subst hrun
      refine ⟨h, fun b hb => ?_, hp.resolved_in⟩
      rcases hp.covered b hb with h1 | h1
      · simp at h1
      · exact h1
    | cons temp rest => simp [trace] at hrun
  | succ fuel ih =>
    cases P with
    | nil =>
      simp only [trace, Except.ok.injEq] at hrun
      subst hrun
      refine ⟨h, fun b hb => ?_, hp.resolved_in⟩
      rcases hp.covered b hb with h1 | h1
      · simp at h1
      · exact h1
    | cons temp rest =>
      simp only [trace] at hrun
      obtain ⟨a1, a2⟩ := tracePass_ok (temp :: rest) [] fl h (by simpa using hp)
      exact ih _ _ hrun a1 a2

theorem flowOK_init (f : Function) (c : Catalog) (s : Summary) : FlowOK f c s Flow.init := by
  constructor
  · intro b _; rfl
  · intro b hb; exact absurd rfl hb
  · exact ⟨fun _ => 0, 0, fun b hb => absurd rfl hb⟩

theorem run_spec {fuel : Nat} {f : Function} {r : Result} (h : runOnFunction fuel f = .ok r) :
    r.cat = catalog f ∧ ∃ s, SumOK f s ∧ r.gens = s.gens ∧ r.kills = s.kills ∧
      FlowOK f (catalog f) s ⟨r.ins, r.outs⟩ ∧ ∀ b, b < f.length ↔ r.outs b ≠ none := by
  unfold runOnFunction at h
  cases hs : summarizeBlocks (catalog f) f.enum Summary.init with
  | error err => simp [hs] at h
  | ok s =>
    simp only [hs] at h
    cases ht : trace f (catalog f) s fuel s.basicblocks Flow.init with
    | error err => simp [ht] at h
    | ok fl =>
      simp only [ht, Except.ok.injEq] at h
      subst h
      have hsum := sumOK_of_run hs
      have hpend : PendingOK Flow.init (List.range f.length) s.basicblocks := by
        rw [hsum.blocks]
        exact ⟨List.nodup_range _, fun _ _ => rfl, fun b hb => Or.inl hb, fun b hb => hb,
          fun b hb => absurd rfl hb⟩
      obtain ⟨a1, a2, a3⟩ := trace_ok fuel _ _ _ ht (flowOK_init f (catalog f) s) hpend
      exact ⟨rfl, s, hsum, rfl, rfl, a1,
        fun b => ⟨fun hb => a2 b (List.mem_range.2 hb), fun hb => List.mem_range.1 (a3 b hb)⟩⟩

theorem predsOf_eq {f : Function} {bi : Nat} {b : BasicBlock} (hb : f[bi]? = some b) :
    predsOf f bi = b.preds := by
  unfold predsOf
  have : f.get? bi = some b := by simpa using hb
  rw [this]

/-- What a completed run has stored for block `bi`. -/
theorem run_block {fuel : Nat} {f : Function} {r : Result} (h : runOnFunction fuel f = .ok r)
    {bi : Nat} {b : BasicBlock} (hb : f[bi]? = some b) :
    ∃ gen kill, summarize (catalog f) bi b = .ok (gen, kill) ∧
      r.gens bi = some gen ∧ r.kills bi = some kill ∧
      (∀ p ∈ b.preds, r.outs p ≠ none) ∧
      r.ins bi = some (collectIn r.outs b.preds) ∧
      r.outs bi = some (collectOut (catalog f) gen (collectIn r.outs b.preds)) := by
  obtain ⟨-, s, hsum, hg, hk, hfl, hall⟩ := run_spec h
  obtain ⟨gen, kill, h1, h2, h3⟩ := hsum.summ bi b hb
  have hlt : bi < f.length := (List.getElem?_eq_some.1 hb).1
  obtain ⟨e1, e2, e3⟩ := hfl.eqns bi ((hall bi).1 hlt)
  rw [predsOf_eq hb] at e1 e2 e3
  have hgen : s.gens.at bi [] = gen := by simp [StdMap.at, h2]
  rw [hgen] at e3
  exact ⟨gen, kill, h1, by rw [hg]; exact h2, by rw [hk]; exact h3, e1, e2, e3⟩

/-! ### Termination of the solver -/

theorem acyclic_of_rank (f : Function) (rank : Nat → Nat)
    (h : ∀ b p, p ∈ predsOf f b → rank p < rank b) : Acyclic f := by
  have hlt : ∀ a b, Relation.TransGen (fun p q => p ∈ predsOf f q) a b → rank a < rank b := by
    intro a b hab
    induction hab with
    | single h1 => exact h _ _ h1
    | tail _ h2 ih => exact Nat.lt_trans ih (h _ _ h2)
  intro b hb
  exact Nat.lt_irrefl _ (hlt b b hb)

/-- In a graph without cycle, from every block of a list one reaches, going
backwards, a block of the list none of whose predecessors is in the list. -/
theorem exists_source {f : Function} (hac : Acyclic f) (n : Nat) (P : List Nat)
    (hn : P.length ≤ n) (hnd : P.Nodup) (m0 : Nat) (hm0 : m0 ∈ P) :
    ∃ m ∈ P, (m = m0 ∨ Relation.TransGen (fun p q => p ∈ predsOf f q) m m0) ∧
      ∀ p ∈ predsOf f m, p ∉ P := by
  induction n generalizing P m0 with
  | zero =>
    have : P = [] := List.length_eq_zero.1 (Nat.le_zero.1 hn)
    rw [this] at hm0; simp at hm0
  | succ n ih =>
    by_cases hsrc : ∀ p ∈ predsOf f m0, p ∉ P
    · exact ⟨m0, hm0, Or.inl rfl, hsrc⟩
    · push_neg at hsrc
      obtain ⟨p, hp, hpP⟩ := hsrc
      have hpm : p ≠ m0 := by
        rintro rfl
        exact hac p (Relation.TransGen.single hp)
      have hlen : (P.erase m0).length ≤ n := by
        rw [List.length_erase_of_mem hm0]; omega
      have hpE : p ∈ P.erase m0 := (List.mem_erase_of_ne hpm).2 hpP
      obtain ⟨m, hm, hreach, hno⟩ := ih (P.erase m0) hlen (hnd.erase m0) p hpE
      have hmm0 : Relation.TransGen (fun p q => p ∈ predsOf f q) m m0 := by
        rcases hreach with rfl | h
        · exact Relation.TransGen.single hp
        · exact Relation.TransGen.tail h hp
      refine ⟨m, List.mem_of_mem_erase hm, Or.inr hmm0, ?_⟩
      intro q hq hqP
      by_cases hqm : q = m0
      · subst hqm
        exact hac q (Relation.TransGen.head hq hmm0)
      · exact hno q hq ((List.mem_erase_of_ne hqm).2 hqP)

theorem tracePass_length_le (f : Function) (c : Catalog) (s : Summary)
    (rest kept : List Nat) (fl : Flow) :
    (tracePass f c s rest kept fl).1.length ≤ kept.length + rest.length := by
  induction rest generalizing kept fl with
  | nil => simp [tracePass]
  | cons temp rest ih =>
    by_cases hready : ∀ p ∈ predsOf f temp, fl.outs p ≠ none
    · rw [tracePass_cons_ready f c s temp rest kept fl hready]
      have := ih kept (resolve f c s fl temp)
      simp only [List.length_cons]; omega
    · rw [tracePass_cons_wait f c s temp rest kept fl hready]
      have := ih (kept ++ [temp]) fl
      simp only [List.length_append, List.length_cons, List.length_nil] at this ⊢
      omega

/-- A pass over a list that holds a block whose predecessors all have an `out`
erases at least one block. -/
theorem tracePass_length_lt (f : Function) (c : Catalog) (s : Summary)
    (rest kept : List Nat) (fl : Flow)
    (h : ∃ m ∈ rest, ∀ p ∈ predsOf f m, fl.outs p ≠ none) :
    (tracePass f c s rest kept fl).1.length < kept.length + rest.length := by
  induction rest generalizing kept with
  | nil => obtain ⟨m, hm, -⟩ := h; simp at hm
  | cons temp rest ih =>
    by_cases hready : ∀ p ∈ predsOf f temp, fl.outs p ≠ none
    · rw [tracePass_cons_ready f c s temp rest kept fl hready]
      have := tracePass_length_le f c s rest kept (resolve f c s fl temp)
      simp only [List.length_cons]; omega
    · rw [tracePass_cons_wait f c s temp rest kept fl hready]
      obtain ⟨m, hm, hmr⟩ := h
      have hmt : m ≠ temp := by rintro rfl; exact hready hmr
      have hm' : m ∈ rest := by
        rcases List.mem_cons.1 hm with h1 | h1
        · exact absurd h1 hmt
        · exact h1
      have := ih (kept ++ [temp]) ⟨m, hm', hmr⟩
      simp only [List.length_append, List.length_cons, List.length_nil] at this ⊢
      omega

theorem exists_ready {f : Function} (hac : Acyclic f) (hrange : PredsInRange f)
    {fl : Flow} {P : List Nat} (hp : PendingOK fl (List.range f.length) P) (hne : P ≠ []) :
    ∃ m ∈ P, ∀ p ∈ predsOf f m, fl.outs p ≠ none := by
  obtain ⟨m0, hm0⟩ := List.exists_mem_of_ne_nil P hne
  obtain ⟨m, hm, -, hsrc⟩ := exists_source hac P.length P (Nat.le_refl _) hp.nodup m0 hm0
  refine ⟨m, hm, ?_⟩
  intro p hpm
  rcases hp.covered p (List.mem_range.2 (hrange m p hpm)) with h1 | h1
  · exact absurd h1 (hsrc p hpm)
  · exact h1

theorem trace_total {f : Function} {c : Catalog} {s : Summary}
    (hac : Acyclic f) (hrange : PredsInRange f) (fuel : Nat) (P : List Nat) (fl : Flow)
    (h : FlowOK f c s fl) (hp : PendingOK fl (List.range f.length) P) (hfuel : P.length ≤ fuel) :
    ∃ fl', trace f c s fuel P fl = .ok fl' := by
  induction fuel generalizing P fl with
  | zero =>
    have : P = [] := List.length_eq_zero.1 (Nat.le_zero.1 hfuel)
    subst this
    exact ⟨fl, by simp [trace]⟩
  | succ fuel ih =>
    cases P with
    | nil => exact ⟨fl, by simp [trace]⟩
    | cons temp rest =>
      simp only [trace]
      obtain ⟨a1, a2⟩ := tracePass_ok (temp :: rest) [] fl h (by simpa using hp)
      apply ih _ _ a1 a2
      have := tracePass_length_lt f c s (temp :: rest) [] fl
        (exists_ready hac hrange hp (by simp))
      simp only [List.length_nil, List.length_cons, Nat.zero_add] at this hfuel
      omega

theorem run_total {f : Function} (hac : Acyclic f) (hrange : PredsInRange f) {s : Summary}
    (hs : summarizeBlocks (catalog f) f.enum Summary.init = .ok s) (fuel : Nat)
    (hfuel : f.length ≤ fuel) : ∃ r, runOnFunction fuel f = .ok r := by
  have hsum := sumOK_of_run hs
  have hpend : PendingOK Flow.init (List.range f.length) s.basicblocks := by
    rw [hsum.blocks]
    exact ⟨List.nodup_range _, fun _ _ => rfl, fun b hb => Or.inl hb, fun b hb => hb,
      fun b hb => absurd rfl hb⟩
  obtain ⟨fl', hfl⟩ := trace_total hac hrange fuel s.basicblocks Flow.init
    (flowOK_init f (catalog f) s) hpend (by rw [hsum.blocks]; simpa using hfuel)
  refine ⟨⟨catalog f, s.gens, s.kills, fl'.ins, fl'.outs⟩, ?_⟩
  unfold runOnFunction
  simp only [hs, hfl]

/-! ### The self-loop -/

theorem selfLoop_pass (c : Catalog) (s : Summary) :
    tracePass selfLoop c s [0, 1] [] Flow.init = ([0, 1], Flow.init) := rfl

theorem selfLoop_trace (c : Catalog) (s : Summary) (fuel : Nat) :
    trace selfLoop c s fuel [0, 1] Flow.init = .error .outOfFuel := by
  induction fuel with
  | zero => rfl
  | succ fuel ih =>
    simp only [trace, selfLoop_pass]
    exact ih

theorem selfLoop_run (fuel : Nat) : runOnFunction fuel selfLoop = .error .outOfFuel := by
  have hs : ∃ s, summarizeBlocks (catalog selfLoop) selfLoop.enum Summary.init = .ok s ∧
      s.basicblocks = [0, 1] := ⟨_, rfl, rfl⟩
  obtain ⟨s, hs1, hs2⟩ := hs
  unfold runOnFunction
  simp only [hs1, hs2, selfLoop_trace]

/-! ### Paths -/

theorem block_of_pred {f : Function} {bi p : Nat} (h : p ∈ predsOf f bi) :
    ∃ b, f[bi]? = some b := by
  unfold predsOf at h
  cases hb : f.get? bi with
  | none => rw [hb] at h; simp at h
  | some b => exact ⟨b, by simpa using hb⟩

theorem pathFromTo_snoc (f : Function) (b0 : Nat) (rest : List Nat) (b' b'' : Nat) :
    PathFromTo f b0 (rest ++ [b']) b'' ↔
      b' = b'' ∧ ∃ b, PathFromTo f b0 rest b ∧ b ∈ predsOf f b' := by
  induction rest generalizing b0 with
  | nil =>
    simp only [List.nil_append, PathFromTo]
    constructor
    · rintro ⟨h1, h2⟩; exact ⟨h2, b0, rfl, h1⟩
    · rintro ⟨h1, b, rfl, h2⟩; exact ⟨h2, h1⟩
  | cons q rest ih =>
    show (b0 ∈ predsOf f q ∧ PathFromTo f q (rest ++ [b']) b'') ↔
      b' = b'' ∧ ∃ b, (b0 ∈ predsOf f q ∧ PathFromTo f q rest b) ∧ b ∈ predsOf f b'
    rw [ih]
    constructor
    · rintro ⟨h1, h2, b, h3, h4⟩; exact ⟨h2, b, ⟨h1, h3⟩, h4⟩
    · rintro ⟨h2, b, ⟨h1, h3⟩, h4⟩; exact ⟨h1, h2, b, h3, h4⟩

theorem writesVarOf_iff {f : Function} {bi : Nat} {b : BasicBlock} (hb : f[bi]? = some b)
    (d : Nat) :
    WritesVarOf f bi d ↔ ∃ e ∈ blockDefs bi b, (catalog f).names d = some e.2 := by
  constructor
  · rintro ⟨b', v, hb', hv, hmem⟩
    rw [hb] at hb'
    obtain rfl := Option.some.inj hb'
    obtain ⟨p, hp⟩ := List.mem_iff_getElem?.1 hmem
    exact ⟨((bi, p), v), mem_blockDefs.2 ⟨rfl, hp, names_hasName f hv⟩, hv⟩
  · rintro ⟨e, he, hn⟩
    exact ⟨b, e.2, hb, hn, List.mem_iff_getElem?.2 ⟨_, (mem_blockDefs.1 he).2.1⟩⟩

/-- The equation that the stored `out` of a block satisfies when the pass
returns. -/
theorem out_eqn {fuel : Nat} {f : Function} {r : Result} (h : runOnFunction fuel f = .ok r)
    {bi : Nat} {b : BasicBlock} (hb : f[bi]? = some b) (d : Nat) :
    d ∈ r.outs.at bi [] ↔
      LastDefIn f bi d ∨ ((∃ p ∈ predsOf f bi, d ∈ r.outs.at p []) ∧ ¬ WritesVarOf f bi d) := by
  obtain ⟨gen, kill, hsum, -, -, -, -, hout⟩ := run_block h hb
  obtain ⟨hgen, -, -, -⟩ := summarize_spec hsum
  have hnd : (collectIn r.outs b.preds).Nodup :=
    (collectIn_sorted r.outs b.preds).imp (fun h => Nat.ne_of_lt h)
  have hat : r.outs.at bi [] = collectOut (catalog f) gen (collectIn r.outs b.preds) := by
    simp [StdMap.at, hout]
  rw [hat, hgen, mem_collectOut hb _ hnd, mem_collectIn, predsOf_eq hb, writesVarOf_iff hb]
  have hl : LastDefIn f bi d ↔ d ∈ lastIds (catalog f) bi b := by
    constructor
    · rintro ⟨b', hb', hd⟩
      rw [hb] at hb'
      obtain rfl := Option.some.inj hb'
      exact hd
    · intro hd; exact ⟨b, hb, hd⟩
  rw [hl]
  constructor
  · rintro (h1 | ⟨h1, h2⟩)
    · exact Or.inl h1
    · exact Or.inr ⟨h1, fun ⟨e, he, hn⟩ => h2 e he hn⟩
  · rintro (h1 | ⟨h1, h2⟩)
    · exact Or.inl h1
    · exact Or.inr ⟨h1, fun e he hn => h2 ⟨e, he, hn⟩⟩

theorem reaches_of_path {fuel : Nat} {f : Function} {r : Result}
    (h : runOnFunction fuel f = .ok r) (d b0 : Nat) (hlast : LastDefIn f b0 d)
    (rest : List Nat) (bi : Nat) (hpath : PathFromTo f b0 rest bi)
    (hfree : ∀ q ∈ rest, ¬ WritesVarOf f q d) : d ∈ r.outs.at bi [] := by
  induction rest using List.reverseRecOn generalizing bi with
  | nil =>
    simp only [PathFromTo] at hpath
    subst hpath
    obtain ⟨b, hb, hl⟩ := hlast
    exact (out_eqn h hb d).2 (Or.inl ⟨b, hb, hl⟩)
  | append_singleton rest q ih =>
    rw [pathFromTo_snoc] at hpath
    obtain ⟨rfl, p, hp, hpq⟩ := hpath
    obtain ⟨b, hb⟩ := block_of_pred hpq
    refine (out_eqn h hb d).2 (Or.inr ⟨⟨p, hpq, ?_⟩, hfree q (by simp)⟩)
    exact ih p hp (fun x hx => hfree x (by simp [hx]))

theorem path_of_reaches {fuel : Nat} {f : Function} {r : Result}
    (h : runOnFunction fuel f = .ok r) (d : Nat) (rank : Nat → Nat)
    (hrank : ∀ b, r.outs b ≠ none → ∀ p ∈ predsOf f b, rank p < rank b)
    (k : Nat) (bi : Nat) (hk : rank bi < k) (hres : r.outs bi ≠ none)
    (hd : d ∈ r.outs.at bi []) :
    ∃ b0 rest, PathFromTo f b0 rest bi ∧ LastDefIn f b0 d ∧ ∀ q ∈ rest, ¬ WritesVarOf f q d := by
  induction k generalizing bi with
  | zero => omega
  | succ k ih =>
    obtain ⟨-, s, -, -, -, hfl, hall⟩ := run_spec h
    have hlt : bi < f.length := (hall bi).2 hres
    have hb : f[bi]? = some f[bi] := List.getElem?_eq_getElem hlt
    rcases (out_eqn h hb d).1 hd with h1 | ⟨⟨p, hp, hdp⟩, hw⟩
    · exact ⟨bi, [], rfl, h1, by simp⟩
    · have hpres : r.outs p ≠ none := (hfl.eqns bi hres).1 p hp
      have := hrank bi hres p hp
      obtain ⟨b0, rest, h1, h2, h3⟩ := ih p (by omega) hpres hdp
      refine ⟨b0, rest ++ [bi], (pathFromTo_snoc f b0 rest bi bi).2 ⟨rfl, p, h1, hp⟩, h2, ?_⟩
      intro q hq
      rcases List.mem_append.1 hq with hq | hq
      · exact h3 q hq
      · rw [List.mem_singleton.1 hq]; exact hw

theorem blockDefs_names (bi : Nat) (b : BasicBlock) :
    (blockDefs bi b).map Prod.snd = b.insts.filter hasName := by
  unfold blockDefs blockStores
  rw [List.filter_map, List.map_map]
  have h1 : (Prod.snd ∘ fun e : Nat × String => ((bi, e.1), e.2)) = Prod.snd := rfl
  have h2 : ((fun e : Handle × String => hasName e.2) ∘ fun e : Nat × String => ((bi, e.1), e.2)) =
      hasName ∘ Prod.snd := rfl
  rw [h1, h2, ← List.filter_map, List.enum_map_snd]

theorem lastIds_subset_gen {f : Function} {bi : Nat} {b : BasicBlock} (hb : f[bi]? = some b)
    {d : Nat} (h : d ∈ lastIds (catalog f) bi b) : d ∈ (genKillLoop (catalog f) bi b).1 := by
  rw [(genKillLoop_spec hb).1]
  unfold lastIds at h
  obtain ⟨e, he, hd⟩ := List.mem_map.1 h
  obtain ⟨l1, l2, hS, -⟩ := (mem_lastDefsOf _ _).1 he
  rw [List.mem_map]
  exact ⟨e, by rw [hS]; simp, hd⟩

theorem diamond_preds (b p : Nat) (h : p ∈ predsOf diamond b) : p < b ∧ p < 4 := by
  rcases b with _ | _ | _ | _ | b
  · simp [predsOf, diamond] at h
  · simp [predsOf, diamond] at h; omega
  · simp [predsOf, diamond] at h; omega
  · simp [predsOf, diamond] at h; omega
  · simp [predsOf, diamond] at h

/-! ### What the solver reads -/

theorem collectOut_congr {c c' : Catalog} (hn : c.names = c'.names) (ha : c.allvar = c'.allvar)
    (myGen inn : List Nat) : collectOut c myGen inn = collectOut c' myGen inn := by
  unfold collectOut
  rw [hn, ha]

/-- The solver reads the function through `predsOf`, the catalog through
`names` and `allvar`, and the summary through `gens` only. -/
theorem tracePass_congr {f g : Function} {c c' : Catalog} {s s' : Summary}
    (hp : ∀ b, predsOf f b = predsOf g b) (hn : c.names = c'.names)
    (ha : c.allvar = c'.allvar) (hg : s.gens = s'.gens)
    (rest kept : List Nat) (fl : Flow) :
    tracePass f c s rest kept fl = tracePass g c' s' rest kept fl := by
  induction rest generalizing kept fl with
  | nil => rfl
  | cons temp rest ih =>
    have hres : resolve f c s fl temp = resolve g c' s' fl temp := by
      unfold resolve
      rw [hp temp, hg, collectOut_congr hn ha]
    by_cases h : ∀ p ∈ predsOf f temp, fl.outs p ≠ none
    · rw [tracePass_cons_ready f c s temp rest kept fl h,
        tracePass_cons_ready g c' s' temp rest kept fl (by rw [← hp temp]; exact h), hres]
      exact ih _ _
    · rw [tracePass_cons_wait f c s temp rest kept fl h,
        tracePass_cons_wait g c' s' temp rest kept fl (by rw [← hp temp]; exact h)]
      exact ih _ _

theorem trace_congr {f g : Function} {c c' : Catalog} {s s' : Summary}
    (hp : ∀ b, predsOf f b = predsOf g b) (hn : c.names = c'.names)
    (ha : c.allvar = c'.allvar) (hg : s.gens = s'.gens)
    (fuel : Nat) (P : List Nat) (fl : Flow) :
    trace f c s fuel P fl = trace g c' s' fuel P fl := by
  induction fuel generalizing P fl with
  | zero => cases P <;> rfl
  | succ fuel ih =>
    cases P with
    | nil => rfl
    | cons temp rest =>
      simp only [trace]
      rw [tracePass_congr hp hn ha hg]
      exact ih _ _

/-! ### Stores to unnamed targets -/

theorem defs_snoc (f : Function) (b : BasicBlock) :
    defs (f ++ [b]) = defs f ++ blockDefs f.length b := by
  unfold defs blockDefs
  rw [allStores_snoc, List.filter_append]

theorem defs_names (f : Function) :
    (defs f).map Prod.snd = (dropUnnamed f).flatMap fun b => b.insts := by
  induction f using List.reverseRecOn with
  | nil => rfl
  | append_singleton l b ih =>
    rw [defs_snoc, List.map_append, ih, blockDefs_names]
    simp [dropUnnamed]

theorem dropUnnamed_take (f : Function) (k : Nat) :
    dropUnnamed (f.take k) = (dropUnnamed f).take k := by
  simp [dropUnnamed, List.map_take]

theorem dropUnnamed_getElem? (f : Function) (k : Nat) :
    (dropUnnamed f)[k]? = (f[k]?).map fun b => ⟨b.insts.filter hasName, b.preds⟩ := by
  simp [dropUnnamed]

/-- A catalog is determined, but for the handles in `index`, by the names of
the named stores in discovery order. -/
theorem CatOK.unique {c c' : Catalog} {D D' : List (Handle × String)}
    (ok : CatOK c D) (ok' : CatOK c' D') (h : D.map Prod.snd = D'.map Prod.snd) :
    c.indexCount = c'.indexCount ∧ c.names = c'.names ∧ c.allvar = c'.allvar := by
  have hget : ∀ k : Nat, (D[k]?).map Prod.snd = (D'[k]?).map Prod.snd := by
    intro k
    rw [← List.getElem?_map, ← List.getElem?_map, h]
  refine ⟨?_, ?_, ?_⟩
  · rw [ok.count, ok'.count, ← List.length_map D Prod.snd, h, List.length_map]
  · funext k
    rw [ok.names, ok'.names, hget]
  · funext n
    have hmem : ∀ k, k ∈ c.allvar.at n [] ↔ k ∈ c'.allvar.at n [] := by
      intro k
      rw [ok.allvar_mem, ok'.allvar_mem, hget]
    have hlist : c.allvar.at n [] = c'.allvar.at n [] := by
      apply List.eq_of_perm_of_sorted (r := (· < ·))
      · rw [List.perm_ext_iff_of_nodup]
        · exact hmem
        · exact (ok.allvar_sorted n).imp (fun h => Nat.ne_of_lt h)
        · exact (ok'.allvar_sorted n).imp (fun h => Nat.ne_of_lt h)
      · exact ok.allvar_sorted n
      · exact ok'.allvar_sorted n
    have hnone : c.allvar n = none ↔ c'.allvar n = none := by
      rw [ok.allvar_none, ok'.allvar_none]
      constructor
      · intro h1 k; rw [← hget]; exact h1 k
      · intro h1 k; rw [hget]; exact h1 k
    cases h1 : c.allvar n with
    | none => exact (hnone.1 h1).symm
    | some l =>
      cases h2 : c'.allvar n with
      | none => rw [hnone.2 h2] at h1; cases h1
      | some l' =>
        simp only [StdMap.at, h1, h2, Option.getD_some] at hlist
        rw [hlist]

theorem catalog_dropUnnamed {f g : Function} (h : dropUnnamed f = dropUnnamed g) :
    (catalog f).indexCount = (catalog g).indexCount ∧ (catalog f).names = (catalog g).names ∧
      (catalog f).allvar = (catalog g).allvar :=
  CatOK.unique (catalog_ok f) (catalog_ok g) (by rw [defs_names, defs_names, h])

theorem firstId_dropUnnamed {f g : Function} (h : dropUnnamed f = dropUnnamed g) (bi : Nat) :
    firstId f bi = firstId g bi := by
  unfold firstId
  rw [← List.length_map (defs (f.take bi)) Prod.snd, ← List.length_map (defs (g.take bi)) Prod.snd,
    defs_names, defs_names, dropUnnamed_take, dropUnnamed_take, h]

theorem genKill_foldl_congr {c c' : Catalog} (ha : c.allvar = c'.allvar)
    (S S' : List (Handle × String)) (hn : S.map Prod.snd = S'.map Prod.snd)
    (hi : S.map (idOf c) = S'.map (idOf c')) (st : List Nat × List Nat) :
    S.foldl (genKillInst c) st = S'.foldl (genKillInst c') st := by
  induction S generalizing S' st with
  | nil =>
    cases S' with
    | nil => rfl
    | cons e' S' => simp at hn
  | cons e S ih =>
    cases S' with
    | nil => simp at hn
    | cons e' S' =>
      simp only [List.map_cons, List.cons.injEq] at hn hi
      have hstep : genKillInst c st e = genKillInst c' st e' := by
        unfold genKillInst
        have hid : c.index.at e.1 0 = c'.index.at e'.1 0 := hi.1
        rw [ha, hn.1, hid]
      rw [List.foldl_cons, List.foldl_cons, hstep]
      exact ih S' hn.2 hi.2 _

theorem genKillLoop_dropUnnamed {f g : Function} (h : dropUnnamed f = dropUnnamed g)
    {bi : Nat} {b b' : BasicBlock} (hb : f[bi]? = some b) (hb' : g[bi]? = some b') :
    genKillLoop (catalog f) bi b = genKillLoop (catalog g) bi b' := by
  have hblock : b.insts.filter hasName = b'.insts.filter hasName := by
    have h1 := dropUnnamed_getElem? f bi
    have h2 := dropUnnamed_getElem? g bi
    rw [hb'] at h2
    rw [h, h2, hb] at h1
    simp only [Option.map_some', Option.some.injEq, BasicBlock.mk.injEq] at h1
    exact h1.1.symm
  have hnames : (blockDefs bi b).map Prod.snd = (blockDefs bi b').map Prod.snd := by
    rw [blockDefs_names, blockDefs_names, hblock]
  rw [genKillLoop_eq hb, genKillLoop_eq hb']
  apply genKill_foldl_congr (catalog_dropUnnamed h).2.2 _ _ hnames
  rw [block_ids hb, block_ids hb', firstId_dropUnnamed h,
    ← List.length_map (blockDefs bi b) Prod.snd, hnames, List.length_map]

theorem summarize_dropUnnamed {f g : Function} (h : dropUnnamed f = dropUnnamed g)
    {bi : Nat} {b b' : BasicBlock} (hb : f[bi]? = some b) (hb' : g[bi]? = some b') :
    summarize (catalog f) bi b = summarize (catalog g) bi b' := by
  unfold summarize
  rw [genKillLoop_dropUnnamed h hb hb']

theorem summarizeBlocks_congr (c c' : Catalog) (l l' : List BasicBlock) (k : Nat) (s0 : Summary)
    (hlen : l.length = l'.length)
    (h : ∀ j b b', l[j]? = some b → l'[j]? = some b' →
      summarize c (k + j) b = summarize c' (k + j) b') :
    summarizeBlocks c (l.enumFrom k) s0 = summarizeBlocks c' (l'.enumFrom k) s0 := by
  induction l generalizing l' k s0 with
  | nil =>
    cases l' with
    | nil => rfl
    | cons b' l' => simp at hlen
  | cons b l ih =>
    cases l' with
    | nil => simp at hlen
    | cons b' l' =>
      rw [List.enumFrom_cons, List.enumFrom_cons]
      unfold summarizeBlocks
      have h0 := h 0 b b' (by simp) (by simp)
      rw [Nat.add_zero] at h0
      simp only [h0]
      cases summarize c' k b' with
      | error err => rfl
      | ok gk =>
        simp only
        apply ih l' (k + 1) _ (by simpa using hlen)
        intro j x x' hx hx'
        have := h (j + 1) x x' (by simpa using hx) (by simpa using hx')
        rw [show k + 1 + j = k + (j + 1) by omega]
        exact this

theorem length_dropUnnamed {f g : Function} (h : dropUnnamed f = dropUnnamed g) :
    f.length = g.length := by
  have := congrArg List.length h
  simpa [dropUnnamed] using this

theorem summarizeBlocks_dropUnnamed {f g : Function} (h : dropUnnamed f = dropUnnamed g) :
    summarizeBlocks (catalog f) f.enum Summary.init =
      summarizeBlocks (catalog g) g.enum Summary.init := by
  apply summarizeBlocks_congr _ _ f g 0 _ (length_dropUnnamed h)
  intro j b b' hb hb'
  rw [Nat.zero_add]
  exact summarize_dropUnnamed h hb hb'

theorem predsOf_dropUnnamed {f g : Function} (h : dropUnnamed f = dropUnnamed g) (bi : Nat) :
    predsOf f bi = predsOf g bi := by
  have h1 := dropUnnamed_getElem? f bi
  have h2 := dropUnnamed_getElem? g bi
  rw [h] at h1
  rw [h1] at h2
  unfold predsOf
  simp only [List.get?_eq_getElem?]
  cases hf : f[bi]? with
  | none =>
    cases hg : g[bi]? with
    | none => rfl
    | some b' => rw [hf, hg] at h2; simp at h2
  | some b =>
    cases hg : g[bi]? with
    | none => rw [hf, hg] at h2; simp at h2
    | some b' =>
      rw [hf, hg] at h2
      simp only [Option.map_some', Option.some.injEq, BasicBlock.mk.injEq] at h2
      exact h2.2

theorem run_dropUnnamed {f g : Function} (h : dropUnnamed f = dropUnnamed g) (fuel : Nat) :
    SameSets (runOnFunction fuel f) (runOnFunction fuel g) := by
  unfold runOnFunction
  rw [summarizeBlocks_dropUnnamed h]
  cases summarizeBlocks (catalog g) g.enum Summary.init with
  | error err => exact rfl
  | ok s =>
    simp only
    rw [trace_congr (predsOf_dropUnnamed h) (catalog_dropUnnamed h).2.1
      (catalog_dropUnnamed h).2.2 rfl]
    cases trace g (catalog g) s fuel s.basicblocks Flow.init with
    | error err => exact rfl
    | ok fl => exact ⟨rfl, rfl, rfl, rfl⟩

/-! ### The solver as a step relation -/

theorem StdMap.insert_keeps {K V : Type} [DecidableEq K] (m : StdMap K V) (k : K) (v : V)
    (k' : K) (w : V) (h : m k' = some w) : m.insert k v k' = some w := by
  unfold StdMap.insert
  by_cases hk : k' = k
  · subst hk; simp [h]
  · simp [hk, h]

theorem resolve_keeps (f : Function) (c : Catalog) (s : Summary) (fl : Flow) (temp : Nat) :
    (∀ b o, fl.outs b = some o → (resolve f c s fl temp).outs b = some o) ∧
    (∀ b i, fl.ins b = some i → (resolve f c s fl temp).ins b = some i) :=
  ⟨fun b o h => StdMap.insert_keeps _ _ _ b o h, fun b i h => StdMap.insert_keeps _ _ _ b i h⟩

theorem step_keeps {f : Function} {c : Catalog} {s : Summary} {σ σ' : SolverState}
    (h : SolverStep f c s σ σ') :
    (∀ b o, σ.fl.outs b = some o → σ'.fl.outs b = some o) ∧
    (∀ b i, σ.fl.ins b = some i → σ'.fl.ins b = some i) := by
  cases h with
  | waits temp rest kept fl _ => exact ⟨fun _ _ h => h, fun _ _ h => h⟩
  | resolves temp rest kept fl _ => exact resolve_keeps f c s fl temp
  | again temp kept fl => exact ⟨fun _ _ h => h, fun _ _ h => h⟩

theorem steps_keep {f : Function} {c : Catalog} {s : Summary} {σ σ' : SolverState}
    (h : Relation.ReflTransGen (SolverStep f c s) σ σ') :
    (∀ b o, σ.fl.outs b = some o → σ'.fl.outs b = some o) ∧
    (∀ b i, σ.fl.ins b = some i → σ'.fl.ins b = some i) := by
  induction h with
  | refl => exact ⟨fun _ _ h => h, fun _ _ h => h⟩
  | tail _ hstep ih =>
    obtain ⟨a1, a2⟩ := step_keeps hstep
    exact ⟨fun b o h => a1 b o (ih.1 b o h), fun b i h => a2 b i (ih.2 b i h)⟩

theorem at_mono {m m' : StdMap Nat (List Nat)} (h : ∀ b o, m b = some o → m' b = some o)
    (b d : Nat) (hd : d ∈ m.at b []) : d ∈ m'.at b [] := by
  cases hm : m b with
  | none => simp [StdMap.at, hm] at hd
  | some o =>
    have := h b o hm
    simp only [StdMap.at, hm, this, Option.getD_some] at hd ⊢
    exact hd

/-- The blocks of the vector are distinct and have no `out` yet. -/
theorem step_vector {f : Function} {c : Catalog} {s : Summary} {σ σ' : SolverState}
    (h : SolverStep f c s σ σ')
    (hnd : (σ.kept ++ σ.rest).Nodup) (hun : ∀ b ∈ σ.kept ++ σ.rest, σ.fl.outs b = none) :
    (σ'.kept ++ σ'.rest).Nodup ∧ (∀ b ∈ σ'.kept ++ σ'.rest, σ'.fl.outs b = none) ∧
    ∀ b ∈ σ'.kept ++ σ'.rest, b ∈ σ.kept ++ σ.rest := by
  cases h with
  | waits temp rest kept fl _ =>
    simp only [List.append_assoc, List.singleton_append] at hnd hun ⊢
    exact ⟨hnd, hun, fun b hb => hb⟩
  | resolves temp rest kept fl _ =>
    simp only at hnd hun ⊢
    have hsub : ∀ b ∈ kept ++ rest, b ∈ kept ++ temp :: rest := by
      intro b hb
      rw [List.mem_append] at hb ⊢
      exact hb.imp id (List.mem_cons_of_mem _)
    have hnot : temp ∉ kept ++ rest := by
      rw [List.nodup_append] at hnd
      rw [List.mem_append]
      rintro (hk | hr)
      · exact hnd.2.2 hk (List.mem_cons_self _ _)
      · exact (List.nodup_cons.1 hnd.2.1).1 hr
    refine ⟨hnd.sublist (List.Sublist.append_left (List.sublist_cons_self _ _) _), ?_, hsub⟩
    intro b hb
    rw [resolve_outs f c s fl temp (hun temp (by simp))]
    have hbt : b ≠ temp := by rintro rfl; exact hnot hb
    rw [if_neg hbt]
    exact hun b (hsub b hb)
  | again temp kept fl =>
    simp only [List.append_nil, List.nil_append] at hnd hun ⊢
    exact ⟨hnd, hun, fun b hb => hb⟩

theorem steps_vector {f : Function} {c : Catalog} {s : Summary} {σ σ' : SolverState}
    (h : Relation.ReflTransGen (SolverStep f c s) σ σ')
    (hnd : (σ.kept ++ σ.rest).Nodup) (hun : ∀ b ∈ σ.kept ++ σ.rest, σ.fl.outs b = none) :
    (σ'.kept ++ σ'.rest).Nodup ∧ (∀ b ∈ σ'.kept ++ σ'.rest, σ'.fl.outs b = none) ∧
    ∀ b ∈ σ'.kept ++ σ'.rest, b ∈ σ.kept ++ σ.rest := by
  induction h with
  | refl => exact ⟨hnd, hun, fun b hb => hb⟩
  | tail _ hstep ih =>
    obtain ⟨a1, a2, a3⟩ := ih
    obtain ⟨b1, b2, b3⟩ := step_vector hstep a1 a2
    exact ⟨b1, b2, fun b hb => a3 b (b3 b hb)⟩

/-- A run of the `for` loop is a sequence of steps. -/
theorem tracePass_steps (f : Function) (c : Catalog) (s : Summary)
    (rest kept : List Nat) (fl : Flow) :
    Relation.ReflTransGen (SolverStep f c s) ⟨rest, kept, fl⟩
      ⟨[], (tracePass f c s rest kept fl).1, (tracePass f c s rest kept fl).2⟩ := by
  induction rest generalizing kept fl with
  | nil => exact Relation.ReflTransGen.refl
  | cons temp rest ih =>
    by_cases h : predsOf f temp ≠ [] ∧ predecessorNotProceed fl.outs (predsOf f temp) = true
    · have heq : tracePass f c s (temp :: rest) kept fl =
          tracePass f c s rest (kept ++ [temp]) fl := by
        rw [tracePass, if_pos h]
      rw [heq]
      exact Relation.ReflTransGen.head (SolverStep.waits temp rest kept fl h) (ih _ _)
    · have heq : tracePass f c s (temp :: rest) kept fl =
          tracePass f c s rest kept (resolve f c s fl temp) := by
        rw [tracePass, if_neg h]; rfl
      rw [heq]
      exact Relation.ReflTransGen.head (SolverStep.resolves temp rest kept fl h) (ih _ _)

/-- A run of the `while` loop that ends is a sequence of steps from the vector
with the iterator at its begin to the empty vector. -/
theorem trace_steps (f : Function) (c : Catalog) (s : Summary) (fuel : Nat)
    (P : List Nat) (fl fl' : Flow) (h : trace f c s fuel P fl = .ok fl') :
    Relation.ReflTransGen (SolverStep f c s) ⟨P, [], fl⟩ ⟨[], [], fl'⟩ := by
  induction fuel generalizing P fl with
  | zero =>
    cases P with
    | nil =>
      simp only [trace, Except.ok.injEq] at h
      subst h; exact Relation.ReflTransGen.refl
    | cons temp rest => simp [trace] at h
  | succ fuel ih =>
    cases P with
    | nil =>
      simp only [trace, Except.ok.injEq] at h
      subst h; exact Relation.ReflTransGen.refl
    | cons temp rest =>
      simp only [trace] at h
      have h1 := tracePass_steps f c s (temp :: rest) [] fl
      have h2 := ih _ _ h
      cases hk : (tracePass f c s (temp :: rest) [] fl).1 with
      | nil =>
        rw [hk] at h1 h2
        cases fuel with
        | zero =>
          simp only [hk, trace, Except.ok.injEq] at h
          rw [h] at h1; exact h1
        | succ fuel =>
          simp only [hk, trace, Except.ok.injEq] at h
          rw [h] at h1; exact h1
      | cons t k =>
        rw [hk] at h1 h2
        exact h1.trans (Relation.ReflTransGen.head (SolverStep.again t k _) h2)

/-- The invariants of the solver hold in every state that the steps reach from
the state before the loops. -/
theorem steps_ok {f : Function} {c : Catalog} {s : Summary} {all : List Nat}
    {σ σ' : SolverState} (h : Relation.ReflTransGen (SolverStep f c s) σ σ')
    (hfl : FlowOK f c s σ.fl) (hp : PendingOK σ.fl all (σ.kept ++ σ.rest)) :
    FlowOK f c s σ'.fl ∧ PendingOK σ'.fl all (σ'.kept ++ σ'.rest) := by
  induction h with
  | refl => exact ⟨hfl, hp⟩
  | tail _ hstep ih =>
    obtain ⟨a1, a2⟩ := ih
    obtain ⟨b1, b2, b3⟩ := step_vector hstep a2.nodup a2.unresolved
    obtain ⟨k1, _⟩ := step_keeps hstep
    cases hstep with
    | waits temp rest kept fl _ =>
      simp only [List.append_assoc, List.singleton_append] at a2 ⊢
      exact ⟨a1, a2⟩
    | resolves temp rest kept fl hr =>
      simp only at a1 a2 b1 b2 b3 k1 ⊢
      have hun : fl.outs temp = none := a2.unresolved temp (by simp)
      have hready := (ready_iff fl.outs (predsOf f temp)).1 hr
      refine ⟨resolve_ok a1 hun hready, b1, b2, ?_, fun b hb => a2.inside b (b3 b hb), ?_⟩
      · intro b hb
        rw [resolve_outs f c s fl temp hun]
        by_cases hbt : b = temp
        · right; simp [hbt]
        · rw [if_neg hbt]
          rcases a2.covered b hb with h1 | h1
          · left
            rw [List.mem_append, List.mem_cons] at h1
            rw [List.mem_append]
            rcases h1 with h1 | h1 | h1
            · exact Or.inl h1
            · exact absurd h1 hbt
            · exact Or.inr h1
          · exact Or.inr h1
      · intro b hb
        rw [resolve_outs f c s fl temp hun] at hb
        by_cases hbt : b = temp
        · rw [hbt]; exact a2.inside temp (by simp)
        · rw [if_neg hbt] at hb
          exact a2.resolved_in b hb
    | again temp kept fl =>
      simp only [List.append_nil, List.nil_append] at a2 ⊢
      exact ⟨a1, a2⟩

theorem pendingOK_init (f : Function) :
    PendingOK Flow.init (List.range f.length) (List.range f.length) :=
  ⟨List.nodup_range _, fun _ _ => rfl, fun _ hb => Or.inl hb, fun _ hb => hb,
    fun _ hb => absurd rfl hb⟩

/-! ### The last store to a variable -/

theorem lastDefsOf_subset (S : List (Handle × String)) {e : Handle × String}
    (h : e ∈ lastDefsOf S) : e ∈ S := by
  obtain ⟨l1, l2, hS, -⟩ := (mem_lastDefsOf S e).1 h
  rw [hS]; simp

theorem lastDefsOf_exists (S : List (Handle × String)) (v : String)
    (h : v ∈ S.map Prod.snd) : ∃ e ∈ lastDefsOf S, e.2 = v := by
  induction S with
  | nil => simp at h
  | cons x rest ih =>
    unfold lastDefsOf
    by_cases hany : rest.any (fun e' => e'.2 == x.2) = true
    · rw [if_pos hany]
      apply ih
      rw [List.map_cons, List.mem_cons] at h
      rcases h with h | h
      · rw [List.any_eq_true] at hany
        obtain ⟨y, hy, hyx⟩ := hany
        have : y.2 = x.2 := by simpa using hyx
        rw [h, ← this]
        exact List.mem_map_of_mem _ hy
      · exact h
    · rw [if_neg hany]
      rw [List.map_cons, List.mem_cons] at h
      rcases h with h | h
      · exact ⟨x, List.mem_cons_self _ _, h.symm⟩
      · obtain ⟨e, he, hev⟩ := ih h
        exact ⟨e, List.mem_cons_of_mem _ he, hev⟩

theorem lastDefsOf_unique (S : List (Handle × String)) {e e' : Handle × String}
    (he : e ∈ lastDefsOf S) (he' : e' ∈ lastDefsOf S) (h : e.2 = e'.2) : e = e' := by
  induction S with
  | nil => simp [lastDefsOf] at he
  | cons x rest ih =>
    unfold lastDefsOf at he he'
    by_cases hany : rest.any (fun e' => e'.2 == x.2) = true
    · rw [if_pos hany] at he he'
      exact ih he he'
    · rw [if_neg hany, List.mem_cons] at he he'
      have hno : ∀ y ∈ lastDefsOf rest, y.2 ≠ x.2 := by
        intro y hy hyx
        apply hany
        rw [List.any_eq_true]
        exact ⟨y, lastDefsOf_subset rest hy, by simpa using hyx⟩
      rcases he with rfl | he
      · rcases he' with rfl | he'
        · rfl
        · exact absurd h.symm (hno _ he')
      · rcases he' with rfl | he'
        · exact absurd h (hno _ he)
        · exact ih he he'

/-- The equation between the stored `out` and `in` of a block in a state of the
solver. -/
theorem flow_out_eqn {f : Function} {s : Summary} {fl : Flow} (hsum : SumOK f s)
    (hfl : FlowOK f (catalog f) s fl) {bi : Nat} {b : BasicBlock} (hb : f[bi]? = some b)
    {out : List Nat} (hout : fl.outs bi = some out) :
    ∃ inn, fl.ins bi = some inn ∧
      (∀ p ∈ b.preds, fl.outs p ≠ none) ∧
      (∀ d, d ∈ inn ↔ ∃ p ∈ b.preds, d ∈ fl.outs.at p []) ∧
      ∀ d, d ∈ out ↔ d ∈ lastIds (catalog f) bi b ∨ (d ∈ inn ∧ ¬ WritesVarOf f bi d) := by
  obtain ⟨gen, kill, h1, h2, -⟩ := hsum.summ bi b hb
  obtain ⟨hgen, -, -, -⟩ := summarize_spec h1
  obtain ⟨e1, e2, e3⟩ := hfl.eqns bi (by rw [hout]; simp)
  rw [predsOf_eq hb] at e1 e2 e3
  have hg : s.gens.at bi [] = gen := by simp [StdMap.at, h2]
  rw [hg, hout, hgen] at e3
  have hnd : (collectIn fl.outs b.preds).Nodup :=
    (collectIn_sorted fl.outs b.preds).imp (fun h => Nat.ne_of_lt h)
  refine ⟨_, e2, e1, fun d => mem_collectIn _ _ d, ?_⟩
  intro d
  rw [Option.some.inj e3, mem_collectOut hb _ hnd, writesVarOf_iff hb]
  constructor
  · rintro (h | ⟨h, h'⟩)
    · exact Or.inl h
    · exact Or.inr ⟨h, fun ⟨e, he, hn⟩ => h' e he hn⟩
  · rintro (h | ⟨h, h'⟩)
    · exact Or.inl h
    · exact Or.inr ⟨h, fun e he hn => h' ⟨e, he, hn⟩⟩

/-! ### The passes of the solver -/

theorem afterPasses_ok {f : Function} (c : Catalog) {s : Summary}
    (hbb : s.basicblocks = List.range f.length) (k : Nat) :
    FlowOK f c s (afterPasses f c s k).2 ∧
      PendingOK (afterPasses f c s k).2 (List.range f.length) (afterPasses f c s k).1 := by
  induction k with
  | zero =>
    simp only [afterPasses, hbb]
    exact ⟨flowOK_init f c s, pendingOK_init f⟩
  | succ k ih =>
    simp only [afterPasses]
    exact tracePass_ok _ [] _ ih.1 (by simpa using ih.2)

theorem afterPasses_progress {f : Function} (c : Catalog) {s : Summary}
    (hac : Acyclic f) (hrange : PredsInRange f)
    (hbb : s.basicblocks = List.range f.length) (k : Nat)
    (hne : (afterPasses f c s k).1 ≠ []) :
    (afterPasses f c s (k + 1)).1.length < (afterPasses f c s k).1.length := by
  obtain ⟨-, hp⟩ := afterPasses_ok c hbb k
  have := tracePass_length_lt f c s (afterPasses f c s k).1 [] (afterPasses f c s k).2
    (exists_ready hac hrange hp hne)
  simpa [afterPasses] using this

theorem afterPasses_length {f : Function} (c : Catalog) {s : Summary}
    (hac : Acyclic f) (hrange : PredsInRange f)
    (hbb : s.basicblocks = List.range f.length) (k : Nat) :
    (afterPasses f c s k).1.length + k ≤ f.length ∨ (afterPasses f c s k).1 = [] := by
  induction k with
  | zero => left; simp [afterPasses, hbb]
  | succ k ih =>
    by_cases hne : (afterPasses f c s k).1 = []
    · right
      simp [afterPasses, hne, tracePass]
    · have := afterPasses_progress c hac hrange hbb k hne
      rcases ih with h | h
      · left; omega
      · exact absurd h hne

theorem trace_eq_afterPasses (f : Function) (c : Catalog) (s : Summary) (fuel : Nat)
    (P : List Nat) (fl fl' : Flow) (h : trace f c s fuel P fl = .ok fl') (k : Nat)
    (hk : afterPasses f c s k = (P, fl)) :
    afterPasses f c s (k + fuel) = ([], fl') := by
  induction fuel generalizing P fl k with
  | zero =>
    cases P with
    | nil =>
      simp only [trace, Except.ok.injEq] at h
      rw [Nat.add_zero, hk, h]
    | cons temp rest => simp [trace] at h
  | succ fuel ih =>
    cases P with
    | nil =>
      simp only [trace, Except.ok.injEq] at h
      subst h
      have hstay : ∀ j, afterPasses f c s (k + j) = ([], fl) := by
        intro j
        induction j with
        | zero => exact hk
        | succ j ihj =>
          rw [← Nat.add_assoc]
          simp only [afterPasses, ihj, tracePass]
      exact hstay _
    | cons temp rest =>
      simp only [trace] at h
      have hnext : afterPasses f c s (k + 1) =
          ((tracePass f c s (temp :: rest) [] fl).1, (tracePass f c s (temp :: rest) [] fl).2) := by
        simp only [afterPasses, hk]
      have := ih _ _ h (k + 1) hnext
      rw [show k + 1 + fuel = k + (fuel + 1) by omega] at this
      exact this

theorem outOfOrder_preds (b p : Nat) (h : p ∈ predsOf outOfOrder b) :
    (if p = 1 then 2 else if p = 2 then 1 else 0) <
      (if b = 1 then 2 else if b = 2 then 1 else 0) ∧ p < 3 := by
  rcases b with _ | _ | _ | b
  · simp [predsOf, outOfOrder] at h
  · simp [predsOf, outOfOrder] at h; subst h; decide
  · simp [predsOf, outOfOrder] at h; subst h; decide
  · simp [predsOf, outOfOrder] at h

/-! ### What is stored at any time -/

/-- A block that is reached from itself along predecessor edges has no `out` in
any state of the solver: it is never ready. -/
theorem cycle_block_unresolved {f : Function} {c : Catalog} {s : Summary} {fl : Flow}
    (hfl : FlowOK f c s fl) (b : Nat)
    (hcyc : Relation.TransGen (fun p q => p ∈ predsOf f q) b b) : fl.outs b = none := by
  obtain ⟨rank, N, hr⟩ := hfl.ranked
  have hlt : ∀ a m, Relation.TransGen (fun p q => p ∈ predsOf f q) a m → fl.outs m ≠ none →
      fl.outs a ≠ none ∧ rank a < rank m := by
    intro a m ham
    induction ham with
    | single h1 =>
      intro hm
      exact ⟨(hfl.eqns _ hm).1 a h1, (hr _ hm).2 a h1⟩
    | tail _ h2 ih =>
      intro hm
      obtain ⟨i1, i2⟩ := ih ((hfl.eqns _ hm).1 _ h2)
      exact ⟨i1, Nat.lt_trans i2 ((hr _ hm).2 _ h2)⟩
  by_contra hne
  exact Nat.lt_irrefl _ (hlt b b hcyc hne).2

/-- A run of the pass that returns has met no block on a cycle. -/
theorem run_ok_no_cycle {fuel : Nat} {f : Function} {r : Result}
    (h : runOnFunction fuel f = .ok r) (b : Nat) (hb : b < f.length) :
    ¬ Relation.TransGen (fun p q => p ∈ predsOf f q) b b := by
  obtain ⟨-, s, -, -, -, hfl, hall⟩ := run_spec h
  intro hc
  exact (hall b).1 hb (cycle_block_unresolved hfl b hc)

theorem straightLine_preds (b p : Nat) (h : p ∈ predsOf straightLine b) : False := by
  rcases b with _ | b
  · simp [predsOf, straightLine] at h
  · simp [predsOf, straightLine] at h

theorem straightLine_run (fuel : Nat) :
    runOnFunction fuel straightLine = .error .outOfRange := rfl

theorem storeThenTwice_run (fuel : Nat) :
    runOnFunction fuel storeThenTwice = .error .outOfRange := rfl

/-! ### The claims -/

/-- C7 (catalog id assignment).  With `defs f` the stores with a named target in
discovery order (blocks in function order, instructions in block order): the
`k`-th of them gets id `k` in `index` and its name in `names`; the ids in use
are exactly `0 .. n-1` for `n = (defs f).length = indexCount`; only named stores
get an id, two handles with the same id are the same store, and a store that
comes later in discovery order has a strictly larger id. -/
theorem catalog_ids_follow_discovery_order (f : Function) :
    (∀ (k : Nat) (e : Handle × String), (defs f)[k]? = some e →
      (catalog f).index e.1 = some k ∧ (catalog f).names k = some e.2) ∧
    (catalog f).indexCount = (defs f).length ∧
    (∀ k : Nat, (catalog f).names k ≠ none ↔ k < (defs f).length) ∧
    (∀ (h : Handle) (k : Nat), (catalog f).index h = some k →
      k < (defs f).length ∧ ∃ nm, (defs f)[k]? = some (h, nm) ∧ hasName nm = true) ∧
    (∀ (h h' : Handle) (k : Nat), (catalog f).index h = some k → (catalog f).index h' = some k →
      h = h') ∧
    (∀ (i j : Nat) (e e' : Handle × String), i < j → (defs f)[i]? = some e →
      (defs f)[j]? = some e' →
      ∃ a b, (catalog f).index e.1 = some a ∧ (catalog f).index e'.1 = some b ∧ a < b) := by
  have ok := catalog_ok f
  have hidx : ∀ (k : Nat) (e : Handle × String), (defs f)[k]? = some e →
      (catalog f).index e.1 = some k := by
    intro k e he
    rw [ok.index, he]; rfl
  refine ⟨?_, ok.count, ?_, ?_, ?_, ?_⟩
  · intro k e he
    refine ⟨hidx k e he, ?_⟩
    rw [ok.names, he]; rfl
  · intro k
    rw [ok.names]
    constructor
    · intro h
      by_contra hk
      rw [List.getElem?_eq_none (by omega)] at h
      exact h rfl
    · intro hk
      rw [List.getElem?_eq_getElem hk]
      simp
  · intro h k hk
    have h1 := (ok.index h k).1 hk
    cases hd : (defs f)[k]? with
    | none => rw [hd] at h1; simp at h1
    | some e =>
      rw [hd] at h1
      simp only [Option.map_some', Option.some.injEq] at h1
      have hlt : k < (defs f).length := (List.getElem?_eq_some.1 hd).1
      have hmem : e ∈ defs f := List.mem_iff_getElem?.2 ⟨k, hd⟩
      have hnm : hasName e.2 = true := by
        have := (List.mem_filter.1 hmem).2
        simpa using this
      exact ⟨hlt, e.2, by rw [← h1], hnm⟩
  · intro h h' k hk hk'
    have h1 := (ok.index h k).1 hk
    have h2 := (ok.index h' k).1 hk'
    rw [h1] at h2
    exact Option.some.inj h2
  · intro i j e e' hij he he'
    exact ⟨i, j, hidx i e he, hidx j e' he', hij⟩

/-- C8 (catalog partition).  Every allocated id `d` has a name `n` in `names`,
the name written by the `d`-th named store; `d` is in the definition list of
`n` and of no other variable, and occurs there exactly once; every definition
list is strictly ascending and holds allocated ids only. -/
theorem catalog_partitions_ids (f : Function) :
    (∀ d : Nat, d < (catalog f).indexCount →
      ∃ n, (catalog f).names d = some n ∧
        (∃ h, (defs f)[d]? = some (h, n)) ∧
        (∀ n', d ∈ (catalog f).allvar.at n' [] ↔ n' = n) ∧
        ((catalog f).allvar.at n []).count d = 1) ∧
    (∀ n, ((catalog f).allvar.at n []).Pairwise (· < ·)) ∧
    (∀ (n : String) (d : Nat), d ∈ (catalog f).allvar.at n [] → d < (catalog f).indexCount) := by
  have ok := catalog_ok f
  refine ⟨?_, ok.allvar_sorted, ?_⟩
  · intro d hd
    rw [ok.count] at hd
    have hget : (defs f)[d]? = some (defs f)[d] := List.getElem?_eq_getElem hd
    have hname : (catalog f).names d = some (defs f)[d].2 := by rw [ok.names, hget]; rfl
    have hmem : ∀ n', d ∈ (catalog f).allvar.at n' [] ↔ n' = (defs f)[d].2 := by
      intro n'
      rw [ok.allvar_mem, hget]
      simp only [Option.map_some', Option.some.injEq]
      exact eq_comm
    refine ⟨(defs f)[d].2, hname, ⟨(defs f)[d].1, hget⟩, hmem, ?_⟩
    have hnd : ((catalog f).allvar.at (defs f)[d].2 []).Nodup :=
      (ok.allvar_sorted _).imp (fun h => Nat.ne_of_lt h)
    exact List.count_eq_one_of_mem hnd ((hmem _).2 rfl)
  · intro n d hd
    have := (ok.allvar_mem n d).1 hd
    rw [ok.count]
    by_contra hlt
    rw [List.getElem?_eq_none (by omega)] at this
    simp at this

/-- C2 (mutual exclusivity), evaluated on the one-block function
`x := 1; y := 2; y := 3; x := 4`: the pass runs to its end without stepping out
of `kill`, and stores `gen = {0,1,2,3}` and `kill = {2}` for the block, so id 2
is in both.  (The deletion loop erases id 3 at position 0, id 2 slides into
position 0 and the cursor steps over it.) -/
theorem kill_keeps_gen_id_after_deletion :
    summarize (catalog crossedStores) 0 ⟨["x", "y", "y", "x"], []⟩ = .ok ([0, 1, 2, 3], [2]) ∧
    (genKillLoop (catalog crossedStores) 0 ⟨["x", "y", "y", "x"], []⟩).2 = [3, 2] ∧
    ∃ r, runOnFunction 1 crossedStores = .ok r ∧
      r.gens 0 = some [0, 1, 2, 3] ∧ r.kills 0 = some [2] := by
  refine ⟨rfl, by decide, _, rfl, by decide, by decide⟩

/-- C3, counterexample.  For the single block `x := 1; x := 2` the instruction
loop builds `gen = {0, 1}` although id 0 is overwritten by id 1 (the last-write
ids are `{1}`), and the deletion loop then steps out of `kill`; with a further
store to `x` in a second block the pass stores `gen (B0) = {0, 1}`. -/
theorem gen_keeps_overwritten_store :
    (genKillLoop (catalog straightLine) 0 ⟨["x", "x"], []⟩).1 = [0, 1] ∧
    lastIds (catalog straightLine) 0 ⟨["x", "x"], []⟩ = [1] ∧
    summarize (catalog straightLine) 0 ⟨["x", "x"], []⟩ = .error .outOfRange ∧
    summarize (catalog straightThenStore) 0 ⟨["x", "x"], []⟩ = .ok ([0, 1], [2]) ∧
    lastIds (catalog straightThenStore) 0 ⟨["x", "x"], []⟩ = [1] := by
  refine ⟨by decide, by decide, rfl, rfl, by decide⟩

/-- C3, amended.  For every block `b` of a function, the `gen` built by the
instruction loop holds exactly the ids of the stores of `b` with a named
target, each of them (also those that a later store of `b` overwrites), in
strictly ascending order: they are the consecutive ids from the number of named
stores of the earlier blocks on. -/
theorem gen_is_every_named_store (f : Function) (bi : Nat) (b : BasicBlock)
    (hb : f[bi]? = some b) :
    (∀ d, d ∈ (genKillLoop (catalog f) bi b).1 ↔
      ∃ p nm, b.insts[p]? = some nm ∧ hasName nm = true ∧
        (catalog f).index (bi, p) = some d) ∧
    (genKillLoop (catalog f) bi b).1 =
      List.range' (firstId f bi) (blockDefs bi b).length ∧
    (genKillLoop (catalog f) bi b).1.Pairwise (· < ·) := by
  refine ⟨mem_gen_iff hb, ?_, ?_⟩
  · rw [(genKillLoop_spec hb).1, block_ids hb]
  · rw [(genKillLoop_spec hb).1]; exact block_ids_sorted hb

/-- Witness of `gen_is_every_named_store` on the single block `x := 1; x := 2`. -/
theorem gen_is_every_named_store_witness :
    (genKillLoop (catalog straightLine) 0 ⟨["x", "x"], []⟩).1 = List.range' 0 2 ∧
    (0 ∈ (genKillLoop (catalog straightLine) 0 ⟨["x", "x"], []⟩).1 ↔
      ∃ p nm, (["x", "x"] : List String)[p]? = some nm ∧ hasName nm = true ∧
        (catalog straightLine).index (0, p) = some 0) :=
  ⟨(gen_is_every_named_store straightLine 0 ⟨["x", "x"], []⟩ rfl).2.1,
   (gen_is_every_named_store straightLine 0 ⟨["x", "x"], []⟩ rfl).1 0⟩

/-- KILL and the other blocks, for a block whose deletion loop ends in range.
Let the pass store `gen` and `kill` for block `b`, and let `d` be a definition
id, of variable `v`, whose store is not in `b`.  Then `d ∈ kill` exactly when
`b` has a store to `v`.  Moreover every id in `kill` is the id of a definition
of a variable that `b` stores to. -/
theorem kill_of_other_blocks (f : Function) (bi : Nat) (b : BasicBlock) (gen kill : List Nat)
    (hb : f[bi]? = some b) (hs : summarize (catalog f) bi b = .ok (gen, kill))
    (d : Nat) (v : String) (hd : (catalog f).names d = some v)
    (hout : ∀ p, (catalog f).index (bi, p) ≠ some d) :
    (d ∈ kill ↔ v ∈ b.insts) ∧
    (∀ o ∈ kill, ∃ w, (catalog f).names o = some w ∧ w ∈ b.insts) := by
  obtain ⟨hgen, -, hsub, hkeep⟩ := summarize_spec hs
  obtain ⟨-, -, hmem⟩ := genKillLoop_spec hb
  have hkill : ∀ o ∈ kill, ∃ w, (catalog f).names o = some w ∧ w ∈ b.insts := by
    intro o ho
    obtain ⟨l1, e, l2, hsp, hn, -⟩ := (hmem o).1 (hsub o ho)
    have he : e ∈ blockDefs bi b := by rw [hsp]; simp
    exact ⟨e.2, hn, List.mem_iff_getElem?.2 ⟨_, (mem_blockDefs.1 he).2.1⟩⟩
  have hdgen : d ∉ gen := by
    rw [hgen, mem_gen_iff hb]
    rintro ⟨p, nm, -, -, h3⟩
    exact hout p h3
  refine ⟨⟨?_, ?_⟩, hkill⟩
  · intro hdk
    obtain ⟨w, hw, hwb⟩ := hkill d hdk
    rw [hd] at hw
    rw [Option.some.inj hw]; exact hwb
  · intro hv
    obtain ⟨p, hp⟩ := List.mem_iff_getElem?.1 hv
    have he : ((bi, p), v) ∈ blockDefs bi b := mem_blockDefs.2 ⟨rfl, hp, names_hasName f hd⟩
    obtain ⟨l1, l2, hsp⟩ := List.append_of_mem he
    apply hkeep d _ hdgen
    rw [hmem]
    refine ⟨l1, _, l2, hsp, hd, ?_⟩
    intro hin
    apply hdgen
    rw [hgen, (genKillLoop_spec hb).1, hsp]
    rw [List.map_append] at hin ⊢
    rw [List.mem_append] at hin ⊢
    rcases hin with h | h
    · exact Or.inl h
    · right
      rw [List.map_cons]
      simp only [List.map_cons, List.map_nil, List.mem_singleton] at h
      rw [h]; exact List.mem_cons_self _ _

/-- KILL of block `B1` of the diamond: id 0 (`x := 1` of `B0`) is in
`kill (B1)`, `B1` storing to `x`. -/
theorem kill_of_other_blocks_witness :
    summarize (catalog diamond) 1 ⟨["x"], [0]⟩ = .ok ([1], [0]) ∧
    ((0 ∈ [0] ↔ "x" ∈ (⟨["x"], [0]⟩ : BasicBlock).insts) ∧
      ∀ o ∈ [0], ∃ w, (catalog diamond).names o = some w ∧
        w ∈ (⟨["x"], [0]⟩ : BasicBlock).insts) :=
  ⟨rfl, kill_of_other_blocks diamond 1 ⟨["x"], [0]⟩ [1] [0] rfl rfl 0 "x"
    (by decide) (by
      intro p
      rcases p with _ | p
      · decide
      · intro h
        have h0 : (catalog diamond).index (0, 0) = some 0 := by decide
        have := (catalog_ok diamond).index (1, p + 1) 0 |>.1 h
        have h1 := (catalog_ok diamond).index (0, 0) 0 |>.1 h0
        rw [h1] at this
        exact absurd (congrArg Prod.fst (Option.some.inj this)) (by simp))⟩

/-- C1, counterexample.  On `B0: x := 1 (id0); x := 2 (id1)`, `B1: x := 3 (id2)`
with `B0 → B1` the pass ends with `gen (B0) = {0,1}`, `kill (B0) = {2}`,
`in (B0) = ∅` and `out (B0) = {1}`: id 0 is in `gen (B0)` and not in
`out (B0)`. -/
theorem out_is_not_gen_union_in_minus_kill :
    ∃ r, runOnFunction 2 straightThenStore = .ok r ∧
      r.gens 0 = some [0, 1] ∧ r.kills 0 = some [2] ∧ r.ins 0 = some [] ∧
      r.outs 0 = some [1] ∧
      ¬ (∀ d : Nat, d ∈ [1] ↔ d ∈ [0, 1] ∨ (d ∈ ([] : List Nat) ∧ d ∉ [2])) := by
  refine ⟨_, rfl, by decide, by decide, by decide, by decide, ?_⟩
  intro h
  exact absurd ((h 0).2 (Or.inl (by decide))) (by decide)

/-- C1, amended.  When the pass returns, the sets stored for a block `b`
satisfy `out (b) ⊆ gen (b) ∪ (in (b) \ kill (b))`; and when the stores of `b`
with a named target write pairwise distinct variables,
`out (b) = gen (b) ∪ (in (b) \ kill (b))`. -/
theorem out_transfer_law (fuel : Nat) (f : Function) (r : Result)
    (h : runOnFunction fuel f = .ok r) (bi : Nat) (b : BasicBlock) (hb : f[bi]? = some b) :
    ∃ gen kill inn out, r.gens bi = some gen ∧ r.kills bi = some kill ∧
      r.ins bi = some inn ∧ r.outs bi = some out ∧
      (∀ d, d ∈ out → d ∈ gen ∨ (d ∈ inn ∧ d ∉ kill)) ∧
      ((b.insts.filter hasName).Nodup →
        ∀ d, d ∈ out ↔ d ∈ gen ∨ (d ∈ inn ∧ d ∉ kill)) := by
  obtain ⟨gen, kill, hsum, hg, hk, -, hin, hout⟩ := run_block h hb
  obtain ⟨hgen, -, hsub, hkeep⟩ := summarize_spec hsum
  obtain ⟨hS, -, hmem⟩ := genKillLoop_spec hb
  have hnd : (collectIn r.outs b.preds).Nodup :=
    (collectIn_sorted r.outs b.preds).imp (fun h => Nat.ne_of_lt h)
  have hmo := mem_collectOut hb (collectIn r.outs b.preds) hnd
  rw [← hgen] at hmo
  have hfwd : ∀ d, d ∈ collectOut (catalog f) gen (collectIn r.outs b.preds) →
      d ∈ gen ∨ (d ∈ collectIn r.outs b.preds ∧ d ∉ kill) := by
    intro d hd
    rcases (hmo d).1 hd with h1 | ⟨h1, h2⟩
    · left; rw [hgen]; exact lastIds_subset_gen hb h1
    · right
      refine ⟨h1, fun hdk => ?_⟩
      obtain ⟨l1, e, l2, hsp, hn, -⟩ := (hmem d).1 (hsub d hdk)
      exact h2 e (by rw [hsp]; simp) hn
  refine ⟨gen, kill, _, _, hg, hk, hin, hout, hfwd, ?_⟩
  intro hdist d
  refine ⟨hfwd d, ?_⟩
  have hgl : d ∈ gen → d ∈ lastIds (catalog f) bi b := by
    intro hd
    rw [hgen, hS] at hd
    obtain ⟨e, he, hde⟩ := List.mem_map.1 hd
    obtain ⟨l1, l2, hsp⟩ := List.append_of_mem he
    unfold lastIds
    rw [List.mem_map]
    refine ⟨e, ?_, hde⟩
    rw [mem_lastDefsOf]
    refine ⟨l1, l2, hsp, ?_⟩
    intro e' he' hnm
    rw [← blockDefs_names bi b, hsp, List.map_append, List.map_cons, List.nodup_append] at hdist
    have := (List.nodup_cons.1 hdist.2.1).1
    apply this
    rw [← hnm]
    exact List.mem_map_of_mem _ he'
  rintro (hd | ⟨hd, hdk⟩)
  · exact (hmo d).2 (Or.inl (hgl hd))
  · by_cases hdg : d ∈ gen
    · exact (hmo d).2 (Or.inl (hgl hdg))
    · refine (hmo d).2 (Or.inr ⟨hd, ?_⟩)
      intro e he hn
      obtain ⟨l1, l2, hsp⟩ := List.append_of_mem he
      apply hdk
      apply hkeep d _ hdg
      rw [hmem]
      refine ⟨l1, e, l2, hsp, hn, ?_⟩
      intro hin'
      apply hdg
      rw [hgen, hS, hsp]
      rw [List.map_append, List.mem_append] at hin' ⊢
      rcases hin' with h1 | h1
      · exact Or.inl h1
      · right
        simp only [List.map_cons, List.map_nil, List.mem_singleton] at h1
        rw [h1, List.map_cons]; exact List.mem_cons_self _ _

/-- Witness of `out_transfer_law` on block `B1` of the diamond. -/
theorem out_transfer_law_witness :
    ∃ r, runOnFunction 3 diamond = .ok r ∧
      r.outs 1 = some [1] ∧ r.gens 1 = some [1] ∧ r.ins 1 = some [0] ∧ r.kills 1 = some [0] ∧
      ∃ gen kill inn out, r.gens 1 = some gen ∧ r.kills 1 = some kill ∧
        r.ins 1 = some inn ∧ r.outs 1 = some out ∧
        (∀ d, d ∈ out → d ∈ gen ∨ (d ∈ inn ∧ d ∉ kill)) ∧
        (((⟨["x"], [0]⟩ : BasicBlock).insts.filter hasName).Nodup →
          ∀ d, d ∈ out ↔ d ∈ gen ∨ (d ∈ inn ∧ d ∉ kill)) :=
  ⟨_, rfl, by decide, by decide, by decide, by decide,
    out_transfer_law 3 diamond _ rfl 1 ⟨["x"], [0]⟩ rfl⟩

/-- The predecessor-union law on a run that returns: the `in` stored for a
block is, as a set, the union of the `out` stored for its predecessors, each of
which has one; a block without predecessors has `in = ∅`. -/
theorem in_is_union_of_pred_outs (fuel : Nat) (f : Function) (r : Result)
    (h : runOnFunction fuel f = .ok r) (bi : Nat) (b : BasicBlock) (hb : f[bi]? = some b) :
    ∃ inn, r.ins bi = some inn ∧
      (∀ p ∈ b.preds, r.outs p ≠ none) ∧
      (∀ d, d ∈ inn ↔ ∃ p ∈ b.preds, ∃ out, r.outs p = some out ∧ d ∈ out) ∧
      (b.preds = [] → inn = []) := by
  obtain ⟨gen, kill, -, -, -, hpre, hin, -⟩ := run_block h hb
  refine ⟨_, hin, hpre, ?_, ?_⟩
  · intro d
    rw [mem_collectIn]
    constructor
    · rintro ⟨p, hp, hd⟩
      cases ho : r.outs p with
      | none => exact absurd ho (hpre p hp)
      | some out =>
        refine ⟨p, hp, out, ho, ?_⟩
        simpa [StdMap.at, ho] using hd
    · rintro ⟨p, hp, out, ho, hd⟩
      exact ⟨p, hp, by simpa [StdMap.at, ho] using hd⟩
  · intro hnil
    rw [hnil]; rfl

/-- The predecessor-union law on the diamond: the pass returns with
`out (B0) = {0}`, `in (B1) = in (B2) = {0}`, `out (B1) = {1}`, `out (B2) = {0}`,
`in (B3) = out (B3) = {0, 1}` and `in (B0) = ∅`. -/
theorem in_is_union_of_pred_outs_witness :
    ∃ r, runOnFunction 3 diamond = .ok r ∧
      r.ins 0 = some [] ∧ r.outs 0 = some [0] ∧ r.ins 1 = some [0] ∧ r.ins 2 = some [0] ∧
      r.outs 1 = some [1] ∧ r.outs 2 = some [0] ∧ r.ins 3 = some [0, 1] ∧
      r.outs 3 = some [0, 1] ∧
      ∃ inn, r.ins 3 = some inn ∧
        (∀ p ∈ (⟨[], [1, 2]⟩ : BasicBlock).preds, r.outs p ≠ none) ∧
        (∀ d, d ∈ inn ↔
          ∃ p ∈ (⟨[], [1, 2]⟩ : BasicBlock).preds, ∃ out, r.outs p = some out ∧ d ∈ out) ∧
        ((⟨[], [1, 2]⟩ : BasicBlock).preds = [] → inn = []) :=
  ⟨_, rfl, by decide, by decide, by decide, by decide, by decide, by decide, by decide,
    by decide, in_is_union_of_pred_outs 3 diamond _ rfl 3 ⟨[], [1, 2]⟩ rfl⟩

/-- Canonical form on a run that returns: the `gen`, `kill`, `in` and `out`
stored for every block are strictly ascending sequences of ids. -/
theorem stored_sets_strictly_ascending (fuel : Nat) (f : Function) (r : Result)
    (h : runOnFunction fuel f = .ok r) (bi : Nat) (b : BasicBlock) (hb : f[bi]? = some b) :
    ∃ gen kill inn out, r.gens bi = some gen ∧ r.kills bi = some kill ∧
      r.ins bi = some inn ∧ r.outs bi = some out ∧
      gen.Pairwise (· < ·) ∧ kill.Pairwise (· < ·) ∧
      inn.Pairwise (· < ·) ∧ out.Pairwise (· < ·) := by
  obtain ⟨gen, kill, hsum, hg, hk, -, hin, hout⟩ := run_block h hb
  obtain ⟨hgen, hks, -, -⟩ := summarize_spec hsum
  obtain ⟨hS, hK0, -⟩ := genKillLoop_spec hb
  have hnd : (collectIn r.outs b.preds).Nodup :=
    (collectIn_sorted r.outs b.preds).imp (fun h => Nat.ne_of_lt h)
  refine ⟨gen, kill, _, _, hg, hk, hin, hout, ?_, hks hK0, collectIn_sorted _ _, ?_⟩
  · rw [hgen, hS]; exact block_ids_sorted hb
  · rw [hgen]; exact collectOut_sorted hb _ hnd

/-- Canonical form on the last block of `B0: x := 1; y := 2`,
`B1: y := 3; x := 4; z := 5` with `B0 → B1`. -/
theorem stored_sets_strictly_ascending_witness :
    ∃ r, runOnFunction 2 [⟨["x", "y"], []⟩, ⟨["y", "x", "z"], [0]⟩] = .ok r ∧
      r.gens 1 = some [2, 3, 4] ∧ r.kills 1 = some [0, 1] ∧ r.ins 1 = some [0, 1] ∧
      r.outs 1 = some [2, 3, 4] ∧
      ∃ gen kill inn out, r.gens 1 = some gen ∧ r.kills 1 = some kill ∧
        r.ins 1 = some inn ∧ r.outs 1 = some out ∧
        gen.Pairwise (· < ·) ∧ kill.Pairwise (· < ·) ∧
        inn.Pairwise (· < ·) ∧ out.Pairwise (· < ·) :=
  ⟨_, rfl, by decide, by decide, by decide, by decide,
    stored_sets_strictly_ascending 2 [⟨["x", "y"], []⟩, ⟨["y", "x", "z"], [0]⟩] _ rfl 1
      ⟨["y", "x", "z"], [0]⟩ rfl⟩

/-- C4, counterexample.  On the two-block function where `B0: x := 1` is a
predecessor of itself and of `B1: x := 2`, GEN/KILL are computed
(`gen (B0) = {0}`, `kill (B0) = {1}`) and then no number of passes of the
`while` loop ends it: `B0` waits for its own `out`, `B1` for that of `B0`. -/
theorem self_loop_never_terminates :
    (∃ s, summarizeBlocks (catalog selfLoop) selfLoop.enum Summary.init = .ok s ∧
      s.gens 0 = some [0] ∧ s.kills 0 = some [1] ∧ s.basicblocks = [0, 1]) ∧
    (∀ (c : Catalog) (s : Summary),
      tracePass selfLoop c s [0, 1] [] Flow.init = ([0, 1], Flow.init)) ∧
    (∀ fuel, runOnFunction fuel selfLoop = .error .outOfFuel) ∧
    ¬ ∃ fuel r, runOnFunction fuel selfLoop = .ok r := by
  refine ⟨⟨_, rfl, by decide, by decide, rfl⟩, selfLoop_pass, selfLoop_run, ?_⟩
  rintro ⟨fuel, r, h⟩
  rw [selfLoop_run] at h
  cases h

/-- C4, amended.  For a function whose control-flow graph has no directed cycle
and whose predecessors are all blocks of the function, once GEN/KILL have been
computed the `while` loop ends within as many passes as there are blocks, with
`in` and `out` stored for every block. -/
theorem solver_terminates_without_cycle (f : Function) (s : Summary)
    (hac : Acyclic f) (hrange : PredsInRange f)
    (hs : summarizeBlocks (catalog f) f.enum Summary.init = .ok s)
    (fuel : Nat) (hfuel : f.length ≤ fuel) :
    ∃ r, runOnFunction fuel f = .ok r ∧
      ∀ b, b < f.length → r.ins b ≠ none ∧ r.outs b ≠ none := by
  obtain ⟨r, hr⟩ := run_total hac hrange hs fuel hfuel
  refine ⟨r, hr, ?_⟩
  intro b hb
  obtain ⟨gen, kill, -, -, -, -, hin, hout⟩ :=
    run_block hr (List.getElem?_eq_getElem hb)
  rw [hin, hout]
  simp

/-- Witness of `solver_terminates_without_cycle` on the diamond. -/
theorem solver_terminates_without_cycle_witness :
    Acyclic diamond ∧ PredsInRange diamond ∧
    ∃ r, runOnFunction 4 diamond = .ok r ∧
      ∀ b, b < diamond.length → r.ins b ≠ none ∧ r.outs b ≠ none :=
  ⟨acyclic_of_rank diamond id (fun b p h => (diamond_preds b p h).1),
   fun b p h => (diamond_preds b p h).2,
   solver_terminates_without_cycle diamond _
    (acyclic_of_rank diamond id (fun b p h => (diamond_preds b p h).1))
    (fun b p h => (diamond_preds b p h).2) rfl 4 (by decide)⟩

/-- The result as reaching definitions, on a run that returns: a definition
`d` is in the `out` stored for block `bi` exactly when there is a control-flow
path `b0 → … → bi` such that `d` is the last store to its variable inside `b0`
and no later block of the path stores to that variable. -/
theorem out_is_reaching_definitions (fuel : Nat) (f : Function) (r : Result)
    (h : runOnFunction fuel f = .ok r) (bi : Nat) (b : BasicBlock) (hb : f[bi]? = some b) :
    ∃ out, r.outs bi = some out ∧
      ∀ d, d ∈ out ↔
        ∃ b0 rest, PathFromTo f b0 rest bi ∧ LastDefIn f b0 d ∧
          ∀ q ∈ rest, ¬ WritesVarOf f q d := by
  obtain ⟨gen, kill, -, -, -, -, -, hout⟩ := run_block h hb
  refine ⟨_, hout, ?_⟩
  intro d
  have hat : r.outs.at bi [] = collectOut (catalog f) gen (collectIn r.outs b.preds) := by
    simp [StdMap.at, hout]
  rw [← hat]
  constructor
  · intro hd
    obtain ⟨-, s, -, -, -, hfl, -⟩ := run_spec h
    obtain ⟨rank, N, hr⟩ := hfl.ranked
    exact path_of_reaches h d rank (fun b hb => (hr b hb).2) (rank bi + 1) bi
      (Nat.lt_succ_self _) (by rw [hout]; simp) hd
  · rintro ⟨b0, rest, h1, h2, h3⟩
    exact reaches_of_path h d b0 h2 rest bi h1 h3

/-- Reaching definitions at the exit of the last block of the diamond: ids 0
and 1, along `B0 → B2 → B3` and `B1 → B3`. -/
theorem out_is_reaching_definitions_witness :
    ∃ r, runOnFunction 3 diamond = .ok r ∧
      ∃ out, r.outs 3 = some out ∧ out = [0, 1] ∧
        ∀ d, d ∈ out ↔
          ∃ b0 rest, PathFromTo diamond b0 rest 3 ∧ LastDefIn diamond b0 d ∧
            ∀ q ∈ rest, ¬ WritesVarOf diamond q d := by
  obtain ⟨out, h1, h2⟩ := out_is_reaching_definitions 3 diamond _ rfl 3 ⟨[], [1, 2]⟩ rfl
  refine ⟨_, rfl, out, h1, ?_, h2⟩
  have : Option.some out = some [0, 1] := by rw [← h1]; decide
  exact Option.some.inj this

/-- C11 (stores to unnamed targets are no-ops).  Let `f` and `g` be the same
function up to stores to unnamed targets, inserted or deleted at any positions
of any blocks.  Then the catalogs agree on the number of ids, on `names` and on
`allvar`, the `k`-th named store of `f` and of `g` write the same variable and
both get id `k`, and the pass ends alike on both: with the same `gens`,
`kills`, `ins` and `outs`, or with the same fault. -/
theorem unnamed_stores_are_noops (f g : Function) (h : dropUnnamed f = dropUnnamed g)
    (fuel : Nat) :
    (catalog f).indexCount = (catalog g).indexCount ∧
    (catalog f).names = (catalog g).names ∧
    (catalog f).allvar = (catalog g).allvar ∧
    (∀ (k : Nat) (e : Handle × String), (defs f)[k]? = some e →
      ∃ e', (defs g)[k]? = some e' ∧ e'.2 = e.2 ∧
        (catalog f).index e.1 = some k ∧ (catalog g).index e'.1 = some k) ∧
    SameSets (runOnFunction fuel f) (runOnFunction fuel g) := by
  obtain ⟨h1, h2, h3⟩ := catalog_dropUnnamed h
  refine ⟨h1, h2, h3, ?_, run_dropUnnamed h fuel⟩
  intro k e he
  have hn : (defs f).map Prod.snd = (defs g).map Prod.snd := by
    rw [defs_names, defs_names, h]
  have hk : ((defs g)[k]?).map Prod.snd = some e.2 := by
    rw [← List.getElem?_map, ← hn, List.getElem?_map, he]; rfl
  cases hg : (defs g)[k]? with
  | none => rw [hg] at hk; simp at hk
  | some e' =>
    rw [hg] at hk
    refine ⟨e', rfl, by simpa using hk, ?_, ?_⟩
    · rw [(catalog_ok f).index, he]; rfl
    · rw [(catalog_ok g).index, hg]; rfl

/-- Witness of `unnamed_stores_are_noops`: `B0: x := 1; t := …; y := 2`,
`B1: y := 3; x := 4` and the same function with other unnamed stores. -/
theorem unnamed_stores_are_noops_witness :
    dropUnnamed withUnnamed = dropUnnamed withOtherUnnamed ∧
    (∃ r, runOnFunction 2 withUnnamed = .ok r ∧ r.gens 1 = some [2, 3] ∧
      r.kills 1 = some [0, 1] ∧ r.ins 1 = some [0, 1] ∧ r.outs 1 = some [2, 3]) ∧
    (∃ r, runOnFunction 2 withOtherUnnamed = .ok r ∧ r.gens 1 = some [2, 3] ∧
      r.kills 1 = some [0, 1] ∧ r.ins 1 = some [0, 1] ∧ r.outs 1 = some [2, 3]) ∧
    ((catalog withUnnamed).indexCount = (catalog withOtherUnnamed).indexCount ∧
      (catalog withUnnamed).names = (catalog withOtherUnnamed).names ∧
      (catalog withUnnamed).allvar = (catalog withOtherUnnamed).allvar ∧
      (∀ (k : Nat) (e : Handle × String), (defs withUnnamed)[k]? = some e →
        ∃ e', (defs withOtherUnnamed)[k]? = some e' ∧ e'.2 = e.2 ∧
          (catalog withUnnamed).index e.1 = some k ∧
          (catalog withOtherUnnamed).index e'.1 = some k) ∧
      SameSets (runOnFunction 2 withUnnamed) (runOnFunction 2 withOtherUnnamed)) :=
  ⟨by decide, ⟨_, rfl, by decide, by decide, by decide, by decide⟩,
    ⟨_, rfl, by decide, by decide, by decide, by decide⟩,
    unnamed_stores_are_noops withUnnamed withOtherUnnamed (by decide) 2⟩

/-- C12 (monotone convergence, `Resolved` is terminal).  Along any sequence of
steps of the solver, an `out` or `in` that is stored stays as it is, so the
`out` and `in` of every block (∅ for a block without an entry) only grow; and
when the blocks of the vector are distinct and without `out`, as they are
before the loops, they remain so, and no block enters the vector: a block
whose `out` is stored is not visited again. -/
theorem stored_sets_never_change (f : Function) (c : Catalog) (s : Summary)
    (σ σ' : SolverState) (h : Relation.ReflTransGen (SolverStep f c s) σ σ') :
    (∀ b o, σ.fl.outs b = some o → σ'.fl.outs b = some o) ∧
    (∀ b i, σ.fl.ins b = some i → σ'.fl.ins b = some i) ∧
    (∀ b d, d ∈ σ.fl.outs.at b [] → d ∈ σ'.fl.outs.at b []) ∧
    (∀ b d, d ∈ σ.fl.ins.at b [] → d ∈ σ'.fl.ins.at b []) ∧
    ((σ.kept ++ σ.rest).Nodup → (∀ b ∈ σ.kept ++ σ.rest, σ.fl.outs b = none) →
      (σ'.kept ++ σ'.rest).Nodup ∧
      (∀ b ∈ σ'.kept ++ σ'.rest, σ'.fl.outs b = none) ∧
      ∀ b ∈ σ'.kept ++ σ'.rest, b ∈ σ.kept ++ σ.rest) := by
  obtain ⟨h1, h2⟩ := steps_keep h
  exact ⟨h1, h2, at_mono h1, at_mono h2, steps_vector h⟩

/-- Witness of `stored_sets_never_change` on the diamond, from the state in
which `B0` has just been resolved (`out (B0) = {0}` stored, `B1, B2, B3` in the
vector) to the end of the `for` loop: `out (B0)` is still `{0}`, and the vector
is empty. -/
theorem stored_sets_never_change_witness :
    (resolve diamond (catalog diamond) (summaryOf diamond) Flow.init 0).outs 0 = some [0] ∧
    (tracePass diamond (catalog diamond) (summaryOf diamond) [1, 2, 3] []
      (resolve diamond (catalog diamond) (summaryOf diamond) Flow.init 0)).2.outs 0 =
        some [0] ∧
    (tracePass diamond (catalog diamond) (summaryOf diamond) [1, 2, 3] []
      (resolve diamond (catalog diamond) (summaryOf diamond) Flow.init 0)).2.outs 3 =
        some [0, 1] ∧
    (∀ b o, (resolve diamond (catalog diamond) (summaryOf diamond) Flow.init 0).outs b = some o →
      (tracePass diamond (catalog diamond) (summaryOf diamond) [1, 2, 3] []
        (resolve diamond (catalog diamond) (summaryOf diamond) Flow.init 0)).2.outs b =
          some o) ∧
    (((tracePass diamond (catalog diamond) (summaryOf diamond) [1, 2, 3] []
        (resolve diamond (catalog diamond) (summaryOf diamond) Flow.init 0)).1 ++ []).Nodup ∧
      (∀ b ∈ (tracePass diamond (catalog diamond) (summaryOf diamond) [1, 2, 3] []
          (resolve diamond (catalog diamond) (summaryOf diamond) Flow.init 0)).1 ++ [],
        (tracePass diamond (catalog diamond) (summaryOf diamond) [1, 2, 3] []
          (resolve diamond (catalog diamond) (summaryOf diamond) Flow.init 0)).2.outs b = none) ∧
      ∀ b ∈ (tracePass diamond (catalog diamond) (summaryOf diamond) [1, 2, 3] []
          (resolve diamond (catalog diamond) (summaryOf diamond) Flow.init 0)).1 ++ [],
        b ∈ ([] ++ [1, 2, 3] : List Nat)) :=
  ⟨by decide, by decide, by decide,
    (stored_sets_never_change diamond (catalog diamond) (summaryOf diamond)
      ⟨[1, 2, 3], [], resolve diamond (catalog diamond) (summaryOf diamond) Flow.init 0⟩ _
      (tracePass_steps diamond (catalog diamond) (summaryOf diamond) [1, 2, 3] []
        (resolve diamond (catalog diamond) (summaryOf diamond) Flow.init 0))).1,
    (stored_sets_never_change diamond (catalog diamond) (summaryOf diamond)
      ⟨[1, 2, 3], [], resolve diamond (catalog diamond) (summaryOf diamond) Flow.init 0⟩ _
      (tracePass_steps diamond (catalog diamond) (summaryOf diamond) [1, 2, 3] []
        (resolve diamond (catalog diamond) (summaryOf diamond) Flow.init 0))).2.2.2.2
      (by decide) (by decide)⟩

/-- C13 (the transfer function that the solver applies).  In every state that
the solver reaches, a block `b` with a stored `out` has a stored `in`, which is
the union of the `out` of its predecessors, and
`out (b) = L (b) ∪ { d ∈ in (b) | b has no store to the variable of d }`, where
`L (b)` holds, for each variable that `b` stores to, the id of its last store in
`b`.  So for each variable written in `b` exactly one definition of it is in
`out (b)`: the last one of `b`. -/
theorem solver_transfer_function (f : Function) (s : Summary)
    (hs : summarizeBlocks (catalog f) f.enum Summary.init = .ok s) (σ : SolverState)
    (hreach : Relation.ReflTransGen (SolverStep f (catalog f) s)
      ⟨s.basicblocks, [], Flow.init⟩ σ)
    (bi : Nat) (b : BasicBlock) (hb : f[bi]? = some b) (out : List Nat)
    (hout : σ.fl.outs bi = some out) :
    ∃ inn, σ.fl.ins bi = some inn ∧
      (∀ d, d ∈ inn ↔ ∃ p ∈ b.preds, d ∈ σ.fl.outs.at p []) ∧
      (∀ d, d ∈ out ↔ d ∈ lastIds (catalog f) bi b ∨ (d ∈ inn ∧ ¬ WritesVarOf f bi d)) ∧
      (∀ v, v ∈ b.insts → hasName v = true →
        ∃ d, d ∈ out ∧ d ∈ lastIds (catalog f) bi b ∧ (catalog f).names d = some v ∧
          ∀ d' ∈ out, (catalog f).names d' = some v → d' = d) := by
  have hsum := sumOK_of_run hs
  have hinit : PendingOK Flow.init (List.range f.length) ([] ++ s.basicblocks) := by
    rw [hsum.blocks]; simpa using pendingOK_init f
  obtain ⟨hfl, -⟩ := steps_ok hreach (flowOK_init f (catalog f) s) hinit
  obtain ⟨inn, h1, -, h3, h4⟩ := flow_out_eqn hsum hfl hb hout
  refine ⟨inn, h1, h3, h4, ?_⟩
  intro v hv hnamed
  obtain ⟨p, hp⟩ := List.mem_iff_getElem?.1 hv
  have hmem : v ∈ (blockDefs bi b).map Prod.snd :=
    List.mem_map.2 ⟨((bi, p), v), mem_blockDefs.2 ⟨rfl, hp, hnamed⟩, rfl⟩
  obtain ⟨e, he, hev⟩ := lastDefsOf_exists _ v hmem
  have heS := lastDefsOf_subset _ he
  have hlast : idOf (catalog f) e ∈ lastIds (catalog f) bi b := List.mem_map_of_mem _ he
  refine ⟨idOf (catalog f) e, (h4 _).2 (Or.inl hlast), hlast, ?_, ?_⟩
  · rw [names_idOf hb heS, hev]
  · intro d' hd' hn
    rcases (h4 d').1 hd' with h5 | ⟨-, h5⟩
    · obtain ⟨e', he', hde'⟩ := List.mem_map.1 h5
      have hn' := names_idOf hb (lastDefsOf_subset _ he')
      rw [hde', hn] at hn'
      have : e' = e := lastDefsOf_unique _ he' he (by rw [hev]; exact (Option.some.inj hn').symm)
      rw [← hde', this]
    · exact absurd ⟨b, v, hb, hn, hv⟩ h5

/-- Witness of `solver_transfer_function`: block `B1` after the first run of the
`for` loop on `B0: x := 1; y := 2`, `B1: y := 3; x := 4; y := 5` with
`B0 → B1`. -/
theorem solver_transfer_function_witness :
    (tracePass [⟨["x", "y"], []⟩, ⟨["y", "x", "y"], [0]⟩]
      (catalog [⟨["x", "y"], []⟩, ⟨["y", "x", "y"], [0]⟩])
      (summaryOf [⟨["x", "y"], []⟩, ⟨["y", "x", "y"], [0]⟩]) [0, 1] [] Flow.init).2.outs 1 =
        some [3, 4] ∧
    (summaryOf [⟨["x", "y"], []⟩, ⟨["y", "x", "y"], [0]⟩]).gens 1 = some [2, 3, 4] ∧
    lastIds (catalog [⟨["x", "y"], []⟩, ⟨["y", "x", "y"], [0]⟩]) 1 ⟨["y", "x", "y"], [0]⟩ =
      [3, 4] ∧
    ∃ inn, (tracePass [⟨["x", "y"], []⟩, ⟨["y", "x", "y"], [0]⟩]
        (catalog [⟨["x", "y"], []⟩, ⟨["y", "x", "y"], [0]⟩])
        (summaryOf [⟨["x", "y"], []⟩, ⟨["y", "x", "y"], [0]⟩]) [0, 1] [] Flow.init).2.ins 1 =
          some inn ∧
      ∀ d, d ∈ [3, 4] ↔
        d ∈ lastIds (catalog [⟨["x", "y"], []⟩, ⟨["y", "x", "y"], [0]⟩]) 1
            ⟨["y", "x", "y"], [0]⟩ ∨
          (d ∈ inn ∧ ¬ WritesVarOf [⟨["x", "y"], []⟩, ⟨["y", "x", "y"], [0]⟩] 1 d) := by
  obtain ⟨inn, h1, -, h3, -⟩ :=
    solver_transfer_function [⟨["x", "y"], []⟩, ⟨["y", "x", "y"], [0]⟩]
      (summaryOf [⟨["x", "y"], []⟩, ⟨["y", "x", "y"], [0]⟩]) rfl _
      (tracePass_steps [⟨["x", "y"], []⟩, ⟨["y", "x", "y"], [0]⟩]
        (catalog [⟨["x", "y"], []⟩, ⟨["y", "x", "y"], [0]⟩])
        (summaryOf [⟨["x", "y"], []⟩, ⟨["y", "x", "y"], [0]⟩]) [0, 1] [] Flow.init)
      1 ⟨["y", "x", "y"], [0]⟩ rfl [3, 4] (by decide)
  exact ⟨by decide, by decide, by decide, inn, h1, h3⟩

/-- C14 (termination on acyclic CFGs).  For a function whose control-flow graph
has no directed cycle and whose predecessors are all blocks of the function,
with `basicblocks` listing the blocks: every run of the `for` loop over a
non-empty vector leaves a shorter vector (it resolves and erases at least one
block), after as many runs as there are blocks the vector is empty, and the
`while` loop ends with `in` and `out` stored for every block. -/
theorem acyclic_pass_resolves_a_block (f : Function) (c : Catalog) (s : Summary)
    (hac : Acyclic f) (hrange : PredsInRange f) (hbb : s.basicblocks = List.range f.length) :
    (∀ k, (afterPasses f c s k).1 ≠ [] →
      (afterPasses f c s (k + 1)).1.length < (afterPasses f c s k).1.length) ∧
    (afterPasses f c s f.length).1 = [] ∧
    ∀ fuel, f.length ≤ fuel →
      ∃ fl, trace f c s fuel s.basicblocks Flow.init = .ok fl ∧
        afterPasses f c s fuel = ([], fl) ∧
        ∀ b, b < f.length → fl.ins b ≠ none ∧ fl.outs b ≠ none := by
  refine ⟨afterPasses_progress c hac hrange hbb, ?_, ?_⟩
  · rcases afterPasses_length c hac hrange hbb f.length with h | h
    · exact List.length_eq_zero.1 (by omega)
    · exact h
  · intro fuel hfuel
    have hinit : PendingOK Flow.init (List.range f.length) s.basicblocks := by
      rw [hbb]; exact pendingOK_init f
    obtain ⟨fl, hfl⟩ := trace_total hac hrange fuel s.basicblocks Flow.init
      (flowOK_init f c s) hinit (by rw [hbb]; simpa using hfuel)
    refine ⟨fl, hfl, ?_, ?_⟩
    · have := trace_eq_afterPasses f c s fuel _ _ _ hfl 0 rfl
      rwa [Nat.zero_add] at this
    · intro b hb
      obtain ⟨a1, a2, -⟩ := trace_ok fuel _ _ _ hfl (flowOK_init f c s) hinit
      have hout := a2 b (List.mem_range.2 hb)
      refine ⟨?_, hout⟩
      rw [(a1.eqns b hout).2.1]
      simp

/-- Witness of `acyclic_pass_resolves_a_block` on `B0 → B2 → B1` with the blocks
listed as `B0, B1, B2`: the first run of the `for` loop resolves `B0` and `B2`
and leaves `B1`, the second resolves `B1`. -/
theorem acyclic_pass_resolves_a_block_witness :
    (afterPasses outOfOrder (catalog outOfOrder) (summaryOf outOfOrder) 0).1 = [0, 1, 2] ∧
    (afterPasses outOfOrder (catalog outOfOrder) (summaryOf outOfOrder) 1).1 = [1] ∧
    (afterPasses outOfOrder (catalog outOfOrder) (summaryOf outOfOrder) 2).1 = [] ∧
    (afterPasses outOfOrder (catalog outOfOrder) (summaryOf outOfOrder) 2).2.outs 1 =
      some [1, 2] ∧
    ((∀ k, (afterPasses outOfOrder (catalog outOfOrder) (summaryOf outOfOrder) k).1 ≠ [] →
        (afterPasses outOfOrder (catalog outOfOrder) (summaryOf outOfOrder) (k + 1)).1.length <
          (afterPasses outOfOrder (catalog outOfOrder) (summaryOf outOfOrder) k).1.length) ∧
      (afterPasses outOfOrder (catalog outOfOrder) (summaryOf outOfOrder)
        outOfOrder.length).1 = [] ∧
      ∀ fuel, outOfOrder.length ≤ fuel →
        ∃ fl, trace outOfOrder (catalog outOfOrder) (summaryOf outOfOrder) fuel
            (summaryOf outOfOrder).basicblocks Flow.init = .ok fl ∧
          afterPasses outOfOrder (catalog outOfOrder) (summaryOf outOfOrder) fuel = ([], fl) ∧
          ∀ b, b < outOfOrder.length → fl.ins b ≠ none ∧ fl.outs b ≠ none) :=
  ⟨by decide, by decide, by decide, by decide,
    acyclic_pass_resolves_a_block outOfOrder (catalog outOfOrder) (summaryOf outOfOrder)
      (acyclic_of_rank outOfOrder (fun b => if b = 1 then 2 else if b = 2 then 1 else 0)
        (fun b p h => (outOfOrder_preds b p h).1))
      (fun b p h => (outOfOrder_preds b p h).2) (by decide)⟩

/-- C15 (safety of the deletion loop), evaluated on the single block
`x := 1; x := 2`: the instruction loop leaves `gen = {0, 1}` and `kill = {1}`;
at cursor 0 the inner loop erases id 1, the only and so the last element of
`kill`; `++k` then moves the cursor to position 1, beyond the end of the now
empty vector, and the loop goes on from there. -/
theorem deletion_loop_steps_beyond_end :
    genKillLoop (catalog straightLine) 0 ⟨["x", "x"], []⟩ = ([0, 1], [1]) ∧
    pruneInner 0 [0, 1] [1] = some [] ∧
    pruneLoop [0, 1] 0 (0 + 1) [] = none ∧
    pruneKill [0, 1] [1] = none ∧
    summarize (catalog straightLine) 0 ⟨["x", "x"], []⟩ = .error .outOfRange ∧
    (∀ fuel, runOnFunction fuel straightLine = .error .outOfRange) := by
  refine ⟨by decide, by decide, by decide, by decide, rfl, fun fuel => rfl⟩

/-- C16 (IN/OUT do not depend on KILL).  The solver run with two families of
kill sets and the same gen sets gives the same result, the same `ins` and
`outs` or the same fault, from every state and for every number of passes, and
so does each run of its `for` loop. -/
theorem in_out_do_not_depend_on_kill (f : Function) (c : Catalog)
    (gens kills kills' : StdMap Nat (List Nat)) (basicblocks : List Nat) :
    (∀ (fuel : Nat) (P : List Nat) (fl : Flow),
      trace f c ⟨gens, kills, basicblocks⟩ fuel P fl =
        trace f c ⟨gens, kills', basicblocks⟩ fuel P fl) ∧
    (∀ (rest kept : List Nat) (fl : Flow),
      tracePass f c ⟨gens, kills, basicblocks⟩ rest kept fl =
        tracePass f c ⟨gens, kills', basicblocks⟩ rest kept fl) :=
  ⟨fun fuel P fl =>
      @trace_congr f f c c ⟨gens, kills, basicblocks⟩ ⟨gens, kills', basicblocks⟩
        (fun _ => rfl) rfl rfl rfl fuel P fl,
    fun rest kept fl =>
      @tracePass_congr f f c c ⟨gens, kills, basicblocks⟩ ⟨gens, kills', basicblocks⟩
        (fun _ => rfl) rfl rfl rfl rest kept fl⟩

/-- C5 (predecessor-union law), evaluated on the single block `x := 1; x := 2`.
The function has no cycle and no predecessor at all, `B0` is its entry block,
for which the law gives `in (B0) = ∅`; the pass steps out of `kill` in the
deletion loop of GEN/KILL and no number of passes makes it return: no `in` and
no `out` is ever stored. -/
theorem straight_line_gets_no_in :
    Acyclic straightLine ∧ PredsInRange straightLine ∧ predsOf straightLine 0 = [] ∧
    (∀ fuel, runOnFunction fuel straightLine = .error .outOfRange) ∧
    ¬ ∃ fuel r, runOnFunction fuel straightLine = .ok r := by
  refine ⟨acyclic_of_rank straightLine id (fun b p h => (straightLine_preds b p h).elim),
    fun b p h => (straightLine_preds b p h).elim, rfl, straightLine_run, ?_⟩
  rintro ⟨fuel, r, h⟩
  rw [straightLine_run] at h
  cases h

/-- C6 (the result as reaching definitions), evaluated on the single block
`x := 1; x := 2`.  The function has no cycle; id 1 is the last store to `x`
inside `B0`, so the path that consists of `B0` alone brings it to the exit of
`B0`; the pass steps out of `kill` in the deletion loop of GEN/KILL and never
returns: no `out (B0)` exists that could hold id 1. -/
theorem reaching_definition_gets_no_out :
    Acyclic straightLine ∧ PredsInRange straightLine ∧
    (PathFromTo straightLine 0 [] 0 ∧ LastDefIn straightLine 0 1 ∧
      ∀ q ∈ ([] : List Nat), ¬ WritesVarOf straightLine q 1) ∧
    (∀ fuel, runOnFunction fuel straightLine = .error .outOfRange) ∧
    ¬ ∃ fuel r, runOnFunction fuel straightLine = .ok r := by
  refine ⟨acyclic_of_rank straightLine id (fun b p h => (straightLine_preds b p h).elim),
    fun b p h => (straightLine_preds b p h).elim,
    ⟨rfl, ⟨⟨["x", "x"], []⟩, rfl, by decide⟩, fun q hq => by simp at hq⟩, straightLine_run, ?_⟩
  rintro ⟨fuel, r, h⟩
  rw [straightLine_run] at h
  cases h

/-- C10 (KILL and the other blocks), evaluated on `B0: x := 1 (id 0)`,
`B1: x := 2 (id 1); x := 3 (id 2)`.  Id 0 is a definition of `x` whose store is
not in `B1`, and `B1` stores to `x`; the instruction loop of `B1` leaves
`gen = {1, 2}` and `kill = {0, 2}`, the deletion loop erases id 2, the last
element of `kill`, and steps beyond the end: no `kill (B1)` is stored, and the
pass does not return. -/
theorem repeated_store_gets_no_kill :
    (catalog storeThenTwice).names 0 = some "x" ∧
    (catalog storeThenTwice).index (0, 0) = some 0 ∧
    (∀ p, (catalog storeThenTwice).index (1, p) ≠ some 0) ∧
    "x" ∈ (⟨["x", "x"], [0]⟩ : BasicBlock).insts ∧
    genKillLoop (catalog storeThenTwice) 1 ⟨["x", "x"], [0]⟩ = ([1, 2], [0, 2]) ∧
    pruneKill [1, 2] [0, 2] = none ∧
    summarize (catalog storeThenTwice) 1 ⟨["x", "x"], [0]⟩ = .error .outOfRange ∧
    (∀ fuel, runOnFunction fuel storeThenTwice = .error .outOfRange) := by
  refine ⟨by decide, by decide, ?_, by decide, by decide, by decide, rfl, storeThenTwice_run⟩
  intro p h
  have h0 : (catalog storeThenTwice).index (0, 0) = some 0 := by decide
  have h1 := (catalog_ok storeThenTwice).index (1, p) 0 |>.1 h
  have h2 := (catalog_ok storeThenTwice).index (0, 0) 0 |>.1 h0
  rw [h2] at h1
  exact absurd (congrArg Prod.fst (Option.some.inj h1)) (by simp)

end RDA
